import Mathlib

/-!
Verification development for the AudioSync core synchronization engine
(`audiosync-core`): a shallow embedding in Lean 4 of the data model
(`models.rs`), the alignment pipeline (`engine.rs`) and the project
round-trip (`project_io.rs`), together with theorems settling the
specification claims.

Modelling conventions:
* `f64`/`f32` values are embedded as exact rationals `ℚ`.  The FFT-based
  convolution `fft_correlate` is embedded as the exact linear convolution
  it computes mathematically (in exact arithmetic the FFT round-trip is
  the identity); floating-point rounding noise is out of scope.
* Rust's `x as i64` on a float truncates toward zero: `truncQ`.
  `x as usize` on a float saturates below at 0 and truncates: `f2usize`
  (the upper saturation bound of `usize` is unreachable for the
  magnitudes produced from `u32` sample rates and is not modelled).
  `x as usize` on an `i64` wraps modulo `2 ^ 64`: `intToUsize`.
* `i64` arithmetic is modelled on `ℤ` (the engine's offsets stay far from
  the `i64` bounds, saturation/overflow is not modelled).
* Rust `Iterator::max_by` returns the LAST maximal element; the embedded
  fold mirrors that exactly.
* The `f64` formatting `{:.1}` inside warning strings is modelled by
  `fmt1` (round to one decimal, half away from zero).  No claim depends
  on the digits, only on the embedded clip name.  The single-quote
  characters the source puts around clip names in messages are elided;
  no claim depends on them.
* Out-of-bounds slice indexing (a Rust panic) and non-termination are
  modelled by `Option`: `none` means the function aborts.
* Progress callbacks, logging and cancellation tokens are no-ops for the
  data flow and are not modelled (all claims are about runs with
  `cancel = None`).
-/

namespace AudioSync

set_option maxRecDepth 100000

/-! ### Generic helpers -/

/-- Truncation toward zero, the semantics of Rust's `f64 as i64`. -/
def truncQ (x : ℚ) : ℤ := if 0 ≤ x then ⌊x⌋ else -⌊-x⌋

/-- Rust's `f64 as usize`: saturates below at `0`, truncates.
(The upper `usize::MAX` saturation is unreachable here and not modelled.) -/
def f2usize (x : ℚ) : ℕ := (max x 0).floor.toNat

/-- Rust's `i64 as usize`: wraps modulo `2 ^ 64`. -/
def intToUsize (i : ℤ) : ℕ := (i % (2 ^ 64)).toNat

/-- Update the element at index `i` (identity when out of range). -/
def modifyIdx {α : Type _} (f : α → α) : ℕ → List α → List α
  | _, [] => []
  | 0, a :: l => f a :: l
  | n + 1, a :: l => a :: modifyIdx f n l

/-- Replace the element at index `i` (identity when out of range). -/
def setIdx {α : Type _} (l : List α) (i : ℕ) (a : α) : List α :=
  modifyIdx (fun _ => a) i l

/-- Insert-or-replace into an association list; models `HashMap::insert`
(the claims never observe entry order). -/
def insertAssoc (m : List (String × ℤ)) (k : String) (v : ℤ) : List (String × ℤ) :=
  if m.any (fun p => p.1 = k) then
    m.map (fun p => if p.1 = k then (k, v) else p)
  else
    m ++ [(k, v)]

/-- Substring test, the semantics of Rust's `String::contains(&str)`. -/
def strContains (hay needle : String) : Bool :=
  hay.data.tails.any (fun suf => needle.data.isPrefixOf suf)

/-- Maximum of absolute values with seed 0: Rust's
`iter().map(|x| x.abs()).fold(0.0, f32::max)`. -/
def maxAbs (l : List ℚ) : ℚ := l.foldl (fun m x => max m |x|) 0

/-- One step of Rust's `Iterator::max_by` on `(index, value)` pairs with a
key function: the accumulator survives only when strictly greater, so the
LAST maximal element wins. -/
def pickLast {α : Type _} (key : α → ℚ) (acc y : ℕ × α) : ℕ × α :=
  if key acc.2 > key y.2 then acc else y

/-- Index of the last maximum of `key` over a list
(`iter().enumerate().max_by(...)` with `unwrap_or(0)` on the index). -/
def maxIdxByKeyLast {α : Type _} (key : α → ℚ) (l : List α) : ℕ :=
  match l.enum with
  | [] => 0
  | x :: xs => (xs.foldl (pickLast key) x).1

/-- Index of the last maximum of `|·|` over a list of values: the
comparator `a.abs().partial_cmp(&b.abs())` of `compute_delay`. -/
def maxByAbsLast (l : List ℚ) : ℕ := maxIdxByKeyLast (fun x => |x|) l

/-- Index of the last maximum over a list of values: the comparator
`a.partial_cmp(b)` of `windowed_offset` (applied to already-absolute
values). -/
def maxIdxLast (l : List ℚ) : ℕ := maxIdxByKeyLast (fun x => x) l

/-- Rounding to nearest (half away from zero handled as half-up on the
scaled value); models the value printed by `{:.1}`. -/
def round1 (q : ℚ) : ℤ := ⌊q * 10 + 1 / 2⌋

/-- Decimal rendering with one fractional digit, modelling `{:.1}`. -/
def fmt1 (q : ℚ) : String :=
  let t : ℤ := round1 q
  let sign := if t < 0 then "-" else ""
  let a := t.natAbs
  sign ++ toString (a / 10) ++ "." ++ toString (a % 10)

/-! ### Data model (`models.rs`) -/

/-- Analysis sample rate (`ANALYSIS_SR = 8000`). -/
def ANALYSIS_SR : ℕ := 8000

/-- Confidence threshold (`CONFIDENCE_THRESHOLD = 3.0`). -/
def CONFIDENCE_THRESHOLD : ℚ := 3

/-- Minimum clip duration to attempt drift measurement
(`MIN_DRIFT_OVERLAP_S = 60.0`). -/
def MIN_DRIFT_OVERLAP_S : ℚ := 60

/-- Minimum number of drift windows (`MIN_DRIFT_WINDOWS = 3`). -/
def MIN_DRIFT_WINDOWS : ℕ := 3

/-- `Clip`: one imported file within a device track.  `samples` are the
8 kHz mono analysis samples. -/
structure Clip where
  file_path : String
  name : String
  samples : List ℚ
  sample_rate : ℕ
  original_sr : ℕ
  original_channels : ℕ
  duration_s : ℚ
  is_video : Bool
  creation_time : Option ℚ
  timeline_offset_samples : ℤ
  timeline_offset_s : ℚ
  confidence : ℚ
  analyzed : Bool
  drift_ppm : ℚ
  drift_confidence : ℚ
  drift_corrected : Bool
deriving DecidableEq, Repr

/-- `Clip::length_samples`. -/
def Clip.length_samples (c : Clip) : ℕ := c.samples.length

/-- `Clip::end_samples`. -/
def Clip.end_samples (c : Clip) : ℤ :=
  c.timeline_offset_samples + (c.samples.length : ℤ)

/-- `Track`: a device track holding clips. -/
structure Track where
  name : String
  clips : List Clip
  is_reference : Bool
  synced_audio : Option (List ℚ)
  synced_channels : ℕ
deriving DecidableEq, Repr

/-- `Track::total_duration_s`. -/
def Track.total_duration_s (t : Track) : ℚ :=
  (t.clips.map (fun c => c.duration_s)).foldl (· + ·) 0

/-- `SyncConfig` (all serialized fields). -/
structure SyncConfig where
  max_offset_s : Option ℚ
  export_format : String
  export_bit_depth : ℕ
  export_bitrate_kbps : ℕ
  export_sr : Option ℕ
  crossfade_ms : ℚ
  drift_correction : Bool
  drift_threshold_ppm : ℚ
deriving DecidableEq, Repr

/-- `SyncConfig::default()`. -/
def defaultSyncConfig : SyncConfig :=
  { max_offset_s := none
    export_format := "wav"
    export_bit_depth := 24
    export_bitrate_kbps := 320
    export_sr := none
    crossfade_ms := 50
    drift_correction := true
    drift_threshold_ppm := 3 / 10 }

/-- `SyncResult`.  The `HashMap<String, i64>` of clip offsets is modelled
as an insert-ordered association list. -/
structure SyncResult where
  reference_track_index : ℕ
  total_timeline_samples : ℤ
  total_timeline_s : ℚ
  sample_rate : ℕ
  clip_offsets : List (String × ℤ)
  avg_confidence : ℚ
  drift_detected : Bool
  warnings : List String
deriving DecidableEq, Repr

/-- Placeholder clip used only to give `getD` a default. -/
def defaultClip : Clip :=
  { file_path := ""
    name := ""
    samples := []
    sample_rate := ANALYSIS_SR
    original_sr := 0
    original_channels := 0
    duration_s := 0
    is_video := false
    creation_time := none
    timeline_offset_samples := 0
    timeline_offset_s := 0
    confidence := 0
    analyzed := false
    drift_ppm := 0
    drift_confidence := 0
    drift_corrected := false }

/-- Placeholder track used only to give `getD` a default. -/
def defaultTrack : Track :=
  { name := ""
    clips := []
    is_reference := false
    synced_audio := none
    synced_channels := 1 }

/-- Track lookup by index (the Rust code only indexes in range). -/
def getTrackD (ts : List Track) (i : ℕ) : Track := ts.getD i defaultTrack

/-- Clip lookup by (track index, clip index). -/
def getClipD (ts : List Track) (tc : ℕ × ℕ) : Clip :=
  (getTrackD ts tc.1).clips.getD tc.2 defaultClip

/-- Update one clip in place. -/
def modifyClip (ts : List Track) (tc : ℕ × ℕ) (f : Clip → Clip) : List Track :=
  modifyIdx (fun t => { t with clips := modifyIdx f tc.2 t.clips }) tc.1 ts

/-- Comparator of `Track::sort_clips_by_time`: `creation_time.unwrap_or(0)`
first, filename as tiebreak. -/
def clipLe (a b : Clip) : Bool :=
  let ta := a.creation_time.getD 0
  let tb := b.creation_time.getD 0
  if ta < tb then true
  else if tb < ta then false
  else a.name ≤ b.name

/-- `Track::sort_clips_by_time` (Rust `sort_by` is a stable merge sort). -/
def sort_clips_by_time (t : Track) : Track :=
  { t with clips := t.clips.mergeSort clipLe }

/-! ### Correlator (`compute_delay`, `fft_correlate`) -/

/-- One output point of the full linear convolution. -/
def convAt (a b : List ℚ) (i : ℕ) : ℚ :=
  (List.range (i + 1)).foldl (fun s j => s + a.getD j 0 * b.getD (i - j) 0) 0

/-- `fft_correlate`: the full convolution of `reference` with the reversed
`target` (`fftconvolve(ref, tgt[::-1], "full")`), of length
`len ref + len target − 1`; the FFT is embedded by the exact convolution
it computes. -/
def fft_correlate (reference target : List ℚ) : List ℚ :=
  (List.range (reference.length + target.length - 1)).map
    (convAt reference target.reverse)

/-- Peak normalization of `compute_delay`: divide by the maximum absolute
value when it exceeds `1e-10`. -/
def normSignal (xs : List ℚ) : List ℚ :=
  let m := maxAbs xs
  if m > 1 / 10 ^ 10 then xs.map (fun x => x / m) else xs

/-- The correlation buffer of `compute_delay` (normalize both inputs, then
correlate). -/
def computeDelayCorr (reference target : List ℚ) : List ℚ :=
  fft_correlate (normSignal reference) (normSignal target)

/-- Lower bound of the peak-search window (`center.saturating_sub(k)` with
`k = (max_offset_s * sr) as usize`); the full range for `None`. -/
def searchLo (targetLen : ℕ) (sr : ℕ) : Option ℚ → ℕ
  | none => 0
  | some maxS => (targetLen - 1) - f2usize (maxS * (sr : ℚ))

/-- Upper bound (exclusive) of the peak-search window
(`min(center + k + 1, n)`); `n` for `None`. -/
def searchHi (targetLen n : ℕ) (sr : ℕ) : Option ℚ → ℕ
  | none => n
  | some maxS => min ((targetLen - 1) + f2usize (maxS * (sr : ℚ)) + 1) n

/-- The peak index of `compute_delay`: last argmax of `|corr|`, restricted
to the window when `max_offset_s` is given. -/
def computeDelayPeak (correlation : List ℚ) (targetLen : ℕ) (sr : ℕ)
    (maxOffset : Option ℚ) : ℕ :=
  match maxOffset with
  | some maxS =>
    let lo := searchLo targetLen sr (some maxS)
    let hi := searchHi targetLen correlation.length sr (some maxS)
    let region := (correlation.drop lo).take (hi - lo)
    maxByAbsLast region + lo
  | none => maxByAbsLast correlation

/-- `compute_delay(reference, target, sr, max_offset_s)`:
returns `(delay_samples, confidence)`. -/
def compute_delay (reference target : List ℚ) (sr : ℕ)
    (maxOffset : Option ℚ) : ℤ × ℚ :=
  if reference.isEmpty || target.isEmpty then (0, 0)
  else
    let correlation := computeDelayCorr reference target
    let peakIdx := computeDelayPeak correlation target.length sr maxOffset
    let delay : ℤ := (peakIdx : ℤ) - ((target.length : ℤ) - 1)
    let absCorr := correlation.map (fun x => |x|)
    let meanCorr := absCorr.foldl (· + ·) 0 / (absCorr.length : ℚ)
    let confidence := absCorr.getD peakIdx 0 / (meanCorr + 1 / 10 ^ 10)
    (delay, confidence)

/-! ### Drift estimator (`measure_drift`, `windowed_offset`, `subsample_peak`) -/

/-- `subsample_peak`: parabolic interpolation around the integer peak. -/
def subsample_peak (correlation : List ℚ) (peakIdx : ℕ) : ℚ :=
  let n := correlation.length
  if peakIdx = 0 ∨ peakIdx + 1 ≥ n then (peakIdx : ℚ)
  else
    let alpha := correlation.getD (peakIdx - 1) 0
    let beta := correlation.getD peakIdx 0
    let gamma := correlation.getD (peakIdx + 1) 0
    let denom := alpha - 2 * beta + gamma
    if |denom| < 1 / 10 ^ 30 then (peakIdx : ℚ)
    else (peakIdx : ℚ) + 1 / 2 * (alpha - gamma) / denom

/-- `windowed_offset`: sub-sample cross-correlation offset of one window
pair. -/
def windowed_offset (refSegment clipSegment : List ℚ) : ℚ :=
  let r := normSignal refSegment
  let t := normSignal clipSegment
  let corr := fft_correlate r t
  let absCorr := corr.map (fun x => |x|)
  let peakIdx := maxIdxLast absCorr
  let refined := subsample_peak absCorr peakIdx
  refined - ((t.length : ℚ) - 1)

/-- The window-sliding loop of `measure_drift`.  The loop bound is the
(possibly wrapped) `overlap_end`; an out-of-bounds slice of the reference
buffer — a Rust panic — yields `none`, as does fuel exhaustion (which can
only happen when `stride = 0`, i.e. the Rust loop does not terminate). -/
def driftLoopGo (refTimeline : List ℚ) (clip : Clip) (sr : ℕ)
    (win stride overlapEnd overlapStart : ℕ) (clipStart : ℤ) :
    ℕ → ℕ → List (ℚ × ℚ) → Option (List (ℚ × ℚ))
  | 0, pos, acc =>
    if pos + win ≤ overlapEnd then none else some acc
  | fuel + 1, pos, acc =>
    if pos + win ≤ overlapEnd then
        if pos + win ≤ refTimeline.length then
          let refWin := (refTimeline.drop pos).take win
          let clipLocal : ℤ := (pos : ℤ) - clipStart
          if clipLocal < 0 ∨ clipLocal.toNat + win > clip.length_samples then
            driftLoopGo refTimeline clip sr win stride overlapEnd overlapStart
              clipStart fuel (pos + stride) acc
          else
            let cl := clipLocal.toNat
            let clipWin := (clip.samples.drop cl).take win
            let refEnergy := maxAbs refWin
            let clipEnergy := maxAbs clipWin
            if refEnergy < 1 / 10 ^ 6 ∨ clipEnergy < 1 / 10 ^ 6 then
              driftLoopGo refTimeline clip sr win stride overlapEnd overlapStart
                clipStart fuel (pos + stride) acc
            else
              let off := windowed_offset refWin clipWin
              let t := ((pos - overlapStart : ℕ) : ℚ) / (sr : ℚ)
              driftLoopGo refTimeline clip sr win stride overlapEnd overlapStart
                clipStart fuel (pos + stride) (acc ++ [(t, off)])
        else none
    else some acc

/-- The linear regression and R² tail of `measure_drift`. -/
def driftRegression (sr : ℕ) (pts : List (ℚ × ℚ)) : ℚ × ℚ :=
  if pts.length < MIN_DRIFT_WINDOWS then (0, 0)
  else
    let n : ℚ := (pts.length : ℚ)
    let sumT := (pts.map Prod.fst).foldl (· + ·) 0
    let sumO := (pts.map Prod.snd).foldl (· + ·) 0
    let sumTT := (pts.map (fun p => p.1 * p.1)).foldl (· + ·) 0
    let sumTO := (pts.map (fun p => p.1 * p.2)).foldl (· + ·) 0
    let denom := n * sumTT - sumT * sumT
    if |denom| < 1 / 10 ^ 30 then (0, 0)
    else
      let slope := (n * sumTO - sumT * sumO) / denom
      let intercept := (sumO - slope * sumT) / n
      let meanO := sumO / n
      let ssRes := (pts.map (fun p => (p.2 - (slope * p.1 + intercept)) ^ 2)).foldl (· + ·) 0
      let ssTot := (pts.map (fun p => (p.2 - meanO) ^ 2)).foldl (· + ·) 0
      let rSquared := min (max (1 - ssRes / (ssTot + 1 / 10 ^ 30)) 0) 1
      let driftPpm := slope / (sr : ℚ) * 10 ^ 6
      (driftPpm, rSquared)

/-- `measure_drift(ref_timeline, clip, sr)`: windowed correlation plus
linear regression; `none` models a panic / non-termination. -/
def measure_drift (refTimeline : List ℚ) (clip : Clip) (sr : ℕ) :
    Option (ℚ × ℚ) :=
  let winSamples := f2usize (30 * (sr : ℚ))
  let strideSamples := f2usize (15 * (sr : ℚ))
  let clipStart := clip.timeline_offset_samples
  let clipEnd := clipStart + (clip.length_samples : ℤ)
  let refLen : ℤ := (refTimeline.length : ℤ)
  let overlapStart := intToUsize (max clipStart 0)
  let overlapEnd := intToUsize (min clipEnd refLen)
  let overlapLen := if overlapStart < overlapEnd then overlapEnd - overlapStart else 0
  if overlapLen < winSamples * 2 then some (0, 0)
  else
    match driftLoopGo refTimeline clip sr winSamples strideSamples overlapEnd
        overlapStart clipStart (overlapEnd + 1) overlapStart [] with
    | none => none
    | some pts => some (driftRegression sr pts)

/-! ### Reference builder (`build_reference_from_metadata`) -/

/-- The creation-time gap used when laying consecutive clips
(`max(0, curr_ct − (prev_ct + prev_duration))`, default `0.5 s`). -/
def gapSeconds (prev cur : Clip) : ℚ :=
  match prev.creation_time, cur.creation_time with
  | some pct, some cct => max (cct - (pct + prev.duration_s)) 0
  | _, _ => 1 / 2

/-- Place `cur` after `prev` in the reference layout (also marks it
analyzed with confidence 100, as the reference builder does). -/
def placeNext (sr : ℕ) (prev cur : Clip) : Clip :=
  let off := prev.timeline_offset_samples + (prev.length_samples : ℤ)
    + truncQ (gapSeconds prev cur * (sr : ℚ))
  { cur with
      timeline_offset_samples := off
      timeline_offset_s := (off : ℚ) / (sr : ℚ)
      confidence := 100
      analyzed := true }

/-- Sequential placement of the clips after the first one. -/
def placeSeq (sr : ℕ) (prev : Clip) : List Clip → List Clip
  | [] => []
  | c :: rest =>
    let c' := placeNext sr prev c
    c' :: placeSeq sr c' rest

/-- Pointwise overwrite of `seg` into `buf` starting at `start`
(`ref_audio[start + j] = c.samples[j]`). -/
def overwriteAt (buf : List ℚ) (start : ℕ) (seg : List ℚ) : List ℚ :=
  buf.enum.map (fun p =>
    if start ≤ p.1 ∧ p.1 < start + seg.length then seg.getD (p.1 - start) 0 else p.2)

/-- Stitch placed clips into a zero-filled buffer of length `maxEnd`
(later clips overwrite earlier ones, as in the Rust loop). -/
def stitchOverwrite (maxEnd : ℕ) (clips : List Clip) : List ℚ :=
  clips.foldl (fun buf c =>
    let start := intToUsize c.timeline_offset_samples
    let segLen := min c.samples.length (maxEnd - start)
    overwriteAt buf start (c.samples.take segLen)) (List.replicate maxEnd 0)

/-- `build_reference_from_metadata`: mutates the reference track's clips
into the metadata layout and returns the stitched acoustic buffer;
`none` models the "no clips" error. -/
def build_reference_from_metadata (track : Track) (sr : ℕ) :
    Option (Track × List ℚ) :=
  match track.clips with
  | [] => none
  | c0 :: rest =>
    let c0' := { c0 with
      timeline_offset_samples := 0
      timeline_offset_s := 0
      confidence := 100
      analyzed := true }
    if rest.isEmpty then
      some ({ track with clips := [c0'] }, c0'.samples)
    else
      let clips' := c0' :: placeSeq sr c0' rest
      let maxEnd := ((clips'.map Clip.end_samples).foldl max 0).toNat
      some ({ track with clips := clips' }, stitchOverwrite maxEnd clips')

/-! ### Timeline enhancer (`stitch_enhanced_timeline`) -/

/-- Pointwise mix of `seg` into `buf` at `start`: overwrite where the
existing magnitude is below `1e-10`, else average. -/
def mixAt (buf : List ℚ) (start : ℕ) (seg : List ℚ) : List ℚ :=
  buf.enum.map (fun p =>
    if start ≤ p.1 ∧ p.1 < start + seg.length then
      let ex := p.2
      let nv := seg.getD (p.1 - start) 0
      if |ex| < 1 / 10 ^ 10 then nv else (ex + nv) / 2
    else p.2)

/-- `stitch_enhanced_timeline`: overlay placed clips onto the reference
buffer. -/
def stitch_enhanced_timeline (refAudio : List ℚ) (tracks : List Track)
    (placed : List (ℕ × ℕ)) (_sr : ℕ) : List ℚ :=
  if placed.isEmpty then refAudio
  else
    let maxEnd := placed.foldl
      (fun m tc => max m (intToUsize (getClipD tracks tc).end_samples)) refAudio.length
    let base := overwriteAt (List.replicate maxEnd 0) 0 refAudio
    placed.foldl (fun buf tc =>
      let clip := getClipD tracks tc
      let start := (max clip.timeline_offset_samples 0).toNat
      let segLen := min clip.samples.length (maxEnd - start)
      if segLen = 0 then buf else mixAt buf start (clip.samples.take segLen)) base

/-! ### Intra-track overlap repair (`fix_intra_track_overlaps`) -/

/-- The consecutive-overlap check (`end_i > start_next` for some pair,
with the early break folded away). -/
def hasOverlapB : List Clip → Bool
  | a :: b :: rest =>
    (decide (b.timeline_offset_samples < a.end_samples)) || hasOverlapB (b :: rest)
  | _ => false

/-- Forward re-sequencing step (offsets only; confidence untouched). -/
def reseqNext (sr : ℕ) (prev cur : Clip) : Clip :=
  let off := prev.timeline_offset_samples + (prev.length_samples : ℤ)
    + truncQ (gapSeconds prev cur * (sr : ℚ))
  { cur with
      timeline_offset_samples := off
      timeline_offset_s := (off : ℚ) / (sr : ℚ) }

/-- Forward sweep from the anchor. -/
def placeFwdSeq (sr : ℕ) (prev : Clip) : List Clip → List Clip
  | [] => []
  | c :: rest =>
    let c' := reseqNext sr prev c
    c' :: placeFwdSeq sr c' rest

/-- Backward re-sequencing step: `offset[i] = offset[i+1] − len[i] − gap`
where the gap is computed from clip `i`'s own creation time and length. -/
def reseqPrev (sr : ℕ) (next cur : Clip) : Clip :=
  let gap : ℚ :=
    match cur.creation_time, next.creation_time with
    | some cct, some nct => max (nct - (cct + cur.duration_s)) 0
    | _, _ => 1 / 2
  let off := next.timeline_offset_samples - (cur.length_samples : ℤ)
    - truncQ (gap * (sr : ℚ))
  { cur with
      timeline_offset_samples := off
      timeline_offset_s := (off : ℚ) / (sr : ℚ) }

/-- Backward sweep, walking the reversed prefix before the anchor. -/
def placeBwdRev (sr : ℕ) (next : Clip) : List Clip → List Clip
  | [] => []
  | c :: rest =>
    let c' := reseqPrev sr next c
    c' :: placeBwdRev sr c' rest

/-- Anchor selection: highest confidence, last wins on ties
(`iter().enumerate().max_by(...)`). -/
def anchorIdxOf (clips : List Clip) : ℕ :=
  maxIdxByKeyLast (fun c => c.confidence) clips

/-- The overlap warning (quoting punctuation elided, see header). -/
def overlapMsg (trackName anchorName : String) : String :=
  "Track " ++ trackName ++ ": overlap detected - re-sequencing using "
    ++ anchorName ++ " as anchor"

/-- `fix_intra_track_overlaps(track, sr, clip_offsets, warnings)`:
returns the updated track, offsets map, and warning list. -/
def fix_intra_track_overlaps (sr : ℕ) (track : Track)
    (offs : List (String × ℤ)) (warnings : List String) :
    Track × List (String × ℤ) × List String :=
  if track.clips.length < 2 then (track, offs, warnings)
  else
    let track1 := sort_clips_by_time track
    if ¬ (hasOverlapB track1.clips = true) then (track1, offs, warnings)
    else
      let clips := track1.clips
      let anchorIdx := anchorIdxOf clips
      let anchor := clips.getD anchorIdx defaultClip
      let warnings1 := warnings ++ [overlapMsg track1.name anchor.name]
      let post := placeFwdSeq sr anchor (clips.drop (anchorIdx + 1))
      let preRev := placeBwdRev sr anchor (clips.take anchorIdx).reverse
      let clips' := preRev.reverse ++ anchor :: post
      let offs1 := post.foldl
        (fun m c => insertAssoc m c.file_path c.timeline_offset_samples) offs
      let offs2 := preRev.foldl
        (fun m c => insertAssoc m c.file_path c.timeline_offset_samples) offs1
      ({ track1 with clips := clips' }, offs2, warnings1)

/-! ### Drift inheritance (`inherit_drift_for_short_clips`) -/

/-- Rust `max_by` on a plain iterator (last maximal element; `none` when
empty). -/
def maxByKeyLast {α : Type _} (key : α → ℚ) : List α → Option α
  | [] => none
  | a :: l => some (l.foldl (fun acc y => if key acc > key y then acc else y) a)

/-- `inherit_drift_for_short_clips(tracks, ref_idx)`. -/
def inherit_drift_for_short_clips (refIdx : ℕ) (tracks : List Track) :
    List Track :=
  (List.range tracks.length).foldl (fun ts ti =>
    if ti = refIdx then ts
    else
      let t := getTrackD ts ti
      let best := maxByKeyLast (fun c => c.drift_confidence)
        (t.clips.filter (fun c =>
          decide (|c.drift_ppm| > 1 / 10 ^ 6) && decide (c.drift_confidence > 1 / 2)))
      match best with
      | none => ts
      | some b =>
        setIdx ts ti { t with clips := t.clips.map (fun c =>
          if decide (|c.drift_ppm| < 1 / 10 ^ 6) && decide (c.drift_confidence = 0) then
            { c with drift_ppm := b.drift_ppm, drift_confidence := b.drift_confidence }
          else c) }) tracks

/-! ### Alignment pipeline (`analyze`), split at the phase boundaries the
claims talk about -/

/-- Mutable state threaded through the pipeline phases. -/
structure EngineState where
  tracks : List Track
  warnings : List String
  confidences : List ℚ
  clip_offsets : List (String × ℤ)
  placed : List (ℕ × ℕ)
  unplaced : List (ℕ × ℕ)
deriving DecidableEq, Repr

/-- `get_coverage_span`. -/
def get_coverage_span (track : Track) : ℚ :=
  let times := track.clips.filterMap
    (fun c => c.creation_time.map (fun ct => (ct, c.duration_s)))
  match times with
  | [] => 0
  | x :: xs =>
    let earliest := xs.foldl (fun m y => min m y.1) x.1
    let latest := xs.foldl (fun m y => max m (y.1 + y.2)) (x.1 + x.2)
    latest - earliest

/-- `get_track_time_origin`. -/
def get_track_time_origin (track : Track) : Option ℚ :=
  match track.clips.filterMap (fun c => c.creation_time) with
  | [] => none
  | x :: xs => some (xs.foldl min x)

/-- First index whose value strictly exceeds all earlier ones, starting
from seed 0 (the `if v > best` accumulation loops of
`select_reference_index`). -/
def argmaxGtQ (vals : List ℚ) : ℕ × ℚ :=
  vals.enum.foldl (fun acc x => if x.2 > acc.2 then x else acc) (0, 0)

/-- `select_reference_index`: user override, else widest coverage span,
else longest total duration. -/
def select_reference_index (tracks : List Track) : ℕ :=
  match tracks.findIdx? (fun t => t.is_reference) with
  | some i => i
  | none =>
    let best := argmaxGtQ (tracks.map get_coverage_span)
    if best.2 ≤ 0 then (argmaxGtQ (tracks.map Track.total_duration_s)).1
    else best.1

/-- The pass-1 low-confidence warning (`{:.1}` modelled by `fmt1`). -/
def lowConfMsg (conf : ℚ) (clipName : String) : String :=
  "Low confidence (" ++ fmt1 conf ++ ") for " ++ clipName

/-- The metadata-fallback warning. -/
def fallbackMsg (clipName : String) (conf : ℚ) : String :=
  clipName ++ " placed via metadata fallback (confidence " ++ fmt1 conf ++ ")"

/-- The `(track, clip)` index pairs visited by the per-clip loops, in
source order, skipping the reference track. -/
def nonRefPairs (tracks : List Track) (refIdx : ℕ) : List (ℕ × ℕ) :=
  (List.range tracks.length).bind (fun ti =>
    if ti = refIdx then []
    else (List.range (getTrackD tracks ti).clips.length).map (fun ci => (ti, ci)))

/-- Pipeline state right after the reference build: reference clip
offsets and confidences are recorded (engine.rs lines 82–92). -/
def initState (tracks : List Track) (refIdx : ℕ) : EngineState :=
  let refClips := (getTrackD tracks refIdx).clips
  { tracks := tracks
    warnings := []
    confidences := refClips.map (fun c => c.confidence)
    clip_offsets := refClips.foldl
      (fun m c => insertAssoc m c.file_path c.timeline_offset_samples) []
    placed := []
    unplaced := [] }

/-- One pass-1 iteration: correlate one clip against the reference buffer
and record the outcome. -/
def pass1Step (refAudio : List ℚ) (sr : ℕ) (maxOff : Option ℚ)
    (st : EngineState) (tc : ℕ × ℕ) : EngineState :=
  let c := getClipD st.tracks tc
  let dc := compute_delay refAudio c.samples sr maxOff
  let tracks' := modifyClip st.tracks tc (fun c =>
    { c with
        timeline_offset_samples := dc.1
        timeline_offset_s := (dc.1 : ℚ) / (sr : ℚ)
        confidence := dc.2
        analyzed := true })
  let offs := insertAssoc st.clip_offsets c.file_path dc.1
  let confs := st.confidences ++ [dc.2]
  if CONFIDENCE_THRESHOLD ≤ dc.2 then
    { st with
        tracks := tracks'
        clip_offsets := offs
        confidences := confs
        placed := st.placed ++ [tc] }
  else
    { st with
        tracks := tracks'
        clip_offsets := offs
        confidences := confs
        unplaced := st.unplaced ++ [tc]
        warnings := st.warnings ++ [lowConfMsg dc.2 c.name] }

/-- Phase 4 (pass 1). -/
def pass1 (refAudio : List ℚ) (sr : ℕ) (maxOff : Option ℚ) (refIdx : ℕ)
    (st : EngineState) : EngineState :=
  (nonRefPairs st.tracks refIdx).foldl (pass1Step refAudio sr maxOff) st

/-- The body of one pass-2 iteration, given the re-correlation result
`(delay, conf)` (engine.rs lines 153–166): accept only on strictly higher
confidence; on crossing the threshold retain only warnings not containing
the clip's name. -/
def pass2Apply (st : EngineState) (tc : ℕ × ℕ) (delay : ℤ) (conf : ℚ)
    (sr : ℕ) : EngineState :=
  let c := getClipD st.tracks tc
  if c.confidence < conf then
    let tracks' := modifyClip st.tracks tc (fun c =>
      { c with
          timeline_offset_samples := delay
          timeline_offset_s := (delay : ℚ) / (sr : ℚ)
          confidence := conf })
    let offs := insertAssoc st.clip_offsets c.file_path delay
    let warnings' :=
      if CONFIDENCE_THRESHOLD ≤ conf then
        st.warnings.filter (fun w => ! strContains w c.name)
      else st.warnings
    { st with
        tracks := tracks'
        clip_offsets := offs
        warnings := warnings' }
  else st

/-- One pass-2 iteration: re-correlate against the enhanced timeline. -/
def pass2Step (enhanced : List ℚ) (sr : ℕ) (maxOff : Option ℚ)
    (st : EngineState) (tc : ℕ × ℕ) : EngineState :=
  let c := getClipD st.tracks tc
  let dc := compute_delay enhanced c.samples sr maxOff
  pass2Apply st tc dc.1 dc.2 sr

/-- Phase 5 (pass 2): only runs when some clip is unplaced. -/
def pass2 (refAudio : List ℚ) (sr : ℕ) (maxOff : Option ℚ)
    (st : EngineState) : EngineState :=
  if st.unplaced.isEmpty then st
  else
    let enhanced := stitch_enhanced_timeline refAudio st.tracks st.placed sr
    st.unplaced.foldl (pass2Step enhanced sr maxOff) st

/-- One metadata-fallback iteration (engine.rs lines 174–198): the
estimate is accepted only when non-negative. -/
def fallbackStep (sr : ℕ) (refOrigin : Option ℚ) (st : EngineState)
    (tc : ℕ × ℕ) : EngineState :=
  let c := getClipD st.tracks tc
  if c.confidence < CONFIDENCE_THRESHOLD then
    match c.creation_time, refOrigin with
    | some ct, some origin =>
      let est := truncQ ((ct - origin) * (sr : ℚ))
      if 0 ≤ est then
        { st with
            tracks := modifyClip st.tracks tc (fun c =>
              { c with
                  timeline_offset_samples := est
                  timeline_offset_s := (est : ℚ) / (sr : ℚ) })
            clip_offsets := insertAssoc st.clip_offsets c.file_path est
            warnings := st.warnings ++ [fallbackMsg c.name c.confidence] }
      else st
    | _, _ => st
  else st

/-- One phase-6.5 iteration: repair one track (the reference track is
skipped). -/
def fixStep (sr : ℕ) (refIdx : ℕ) (st : EngineState) (ti : ℕ) : EngineState :=
  if ti = refIdx then st
  else
    let r := fix_intra_track_overlaps sr (getTrackD st.tracks ti)
      st.clip_offsets st.warnings
    { st with
        tracks := setIdx st.tracks ti r.1
        clip_offsets := r.2.1
        warnings := r.2.2 }

/-- Phase 6.5: overlap repair for every non-reference track. -/
def fixPhase (sr : ℕ) (refIdx : ℕ) (st : EngineState) : EngineState :=
  (List.range st.tracks.length).foldl (fixStep sr refIdx) st

/-- The clip offsets in engine traversal order. -/
def offsList (ts : List Track) : List ℤ :=
  ts.bind (fun t => t.clips.map (fun c => c.timeline_offset_samples))

/-- The clip ends in engine traversal order. -/
def endsList (ts : List Track) : List ℤ :=
  ts.bind (fun t => t.clips.map Clip.end_samples)

/-- The normalization loop's `max_end` accumulator (seeded with 0). -/
def maxEndTracks (ts : List Track) : ℤ := (endsList ts).foldl max 0

/-- Shift one clip by `shift` samples (normalization inner loop). -/
def shiftClip (sr : ℕ) (shift : ℤ) (c : Clip) : Clip :=
  let off := c.timeline_offset_samples + shift
  { c with timeline_offset_samples := off, timeline_offset_s := (off : ℚ) / (sr : ℚ) }

/-- Phase 7 (normalization): shift everything so the earliest offset is
zero; returns the updated state and the stored `max_end`. -/
def normalizePhase (sr : ℕ) (st : EngineState) : EngineState × ℤ :=
  let minOffset := (offsList st.tracks).foldl min 0
  let maxEnd := maxEndTracks st.tracks
  if minOffset < 0 then
    let shift := -minOffset
    let tracks' := st.tracks.map (fun t =>
      { t with clips := t.clips.map (shiftClip sr shift) })
    let offs' := (tracks'.bind (fun t => t.clips)).foldl
      (fun m c => insertAssoc m c.file_path c.timeline_offset_samples) st.clip_offsets
    ({ st with tracks := tracks', clip_offsets := offs' }, maxEnd + shift)
  else (st, maxEnd)

/-- The per-clip drift measurement fold (phase 8 inner loops); `none`
propagates a `measure_drift` panic. -/
def driftFold (refBuf : List ℚ) (sr : ℕ) (thresh : ℚ) :
    List (ℕ × ℕ) → List Track → Bool → Option (List Track × Bool)
  | [], ts, det => some (ts, det)
  | tc :: rest, ts, det =>
    let c := getClipD ts tc
    if c.analyzed = true ∧ MIN_DRIFT_OVERLAP_S ≤ c.duration_s then
      match measure_drift refBuf c sr with
      | none => none
      | some pr =>
        if pr.2 > 1 / 2 ∧ |pr.1| > thresh then
          driftFold refBuf sr thresh rest
            (modifyClip ts tc (fun c =>
              { c with drift_ppm := pr.1, drift_confidence := pr.2 })) true
        else driftFold refBuf sr thresh rest ts det
    else driftFold refBuf sr thresh rest ts det

/-- Phase 8 (drift detection), including the reference rebuild of
engine.rs line 246 which resets the reference track's offsets. -/
def analyzeDriftPhase (sr : ℕ) (refIdx : ℕ) (cfg : SyncConfig)
    (st : EngineState) : Option (EngineState × Bool) :=
  match build_reference_from_metadata (getTrackD st.tracks refIdx) sr with
  | none => none
  | some pr =>
    let tracks0 := setIdx st.tracks refIdx pr.1
    match driftFold pr.2 sr cfg.drift_threshold_ppm
        (nonRefPairs tracks0 refIdx) tracks0 false with
    | none => none
    | some r => some ({ st with tracks := r.1 }, r.2)

/-- `analyze` up to and including phase 6.5 (the spec's phase 8, the
intra-track overlap repair); returns the reference index and the state. -/
def analyzeToFix (tracks : List Track) (config : SyncConfig) :
    Option (ℕ × EngineState) :=
  if tracks.isEmpty then none
  else if ((tracks.map (fun t => t.clips.length)).foldl (· + ·) 0) = 0 then none
  else
    let sr := ANALYSIS_SR
    let tracks1 := tracks.map sort_clips_by_time
    let refIdx := select_reference_index tracks1
    let tracks2 := modifyIdx (fun t => { t with is_reference := true }) refIdx tracks1
    match build_reference_from_metadata (getTrackD tracks2 refIdx) sr with
    | none => none
    | some pr =>
      let tracks3 := setIdx tracks2 refIdx pr.1
      let st0 := initState tracks3 refIdx
      let st1 := pass1 pr.2 sr config.max_offset_s refIdx st0
      let st2 := pass2 pr.2 sr config.max_offset_s st1
      let origin := get_track_time_origin (getTrackD st2.tracks refIdx)
      let st3 := st2.unplaced.foldl (fallbackStep sr origin) st2
      some (refIdx, fixPhase sr refIdx st3)

/-- `analyze` up to and including phase 7 (the spec's phase 9,
normalization); also returns the stored `max_end`. -/
def analyzeToNorm (tracks : List Track) (config : SyncConfig) :
    Option (ℕ × EngineState × ℤ) :=
  match analyzeToFix tracks config with
  | none => none
  | some p =>
    let r := normalizePhase ANALYSIS_SR p.2
    some (p.1, r.1, r.2)

/-- The full `analyze` pipeline: returns the final tracks and the
`SyncResult` (`none` models the fatal error paths). -/
def analyze (tracks : List Track) (config : SyncConfig) :
    Option (List Track × SyncResult) :=
  match analyzeToNorm tracks config with
  | none => none
  | some p =>
    let refIdx := p.1
    let st := p.2.1
    let maxEnd := p.2.2
    let sr := ANALYSIS_SR
    let avg := if st.confidences.isEmpty then 0
      else st.confidences.foldl (· + ·) 0 / (st.confidences.length : ℚ)
    match analyzeDriftPhase sr refIdx config st with
    | none => none
    | some r =>
      let finalTracks :=
        if r.2 then inherit_drift_for_short_clips refIdx r.1.tracks else r.1.tracks
      some (finalTracks,
        { reference_track_index := refIdx
          total_timeline_samples := maxEnd
          total_timeline_s := (maxEnd : ℚ) / (sr : ℚ)
          sample_rate := sr
          clip_offsets := r.1.clip_offsets
          avg_confidence := avg
          drift_detected := r.2
          warnings := r.1.warnings })

/-! ### Project I/O (`project_io.rs`)

Serde's derived (de)serialization is embedded at the typed-value level:
`serde_json` round-trips these derived structures field-by-field, except
that every `#[serde(skip)]` field is omitted on save and filled with
`Default::default()` on load.  The skipped fields are `Clip.samples`
(default `[]`), `Track.synced_audio` (default `None`) and
`Track.synced_channels` (default `0u32`). -/

/-- `PROJECT_VERSION = 2`. -/
def PROJECT_VERSION : ℕ := 2

/-- The serialized form of a `Clip` (everything but `samples`). -/
structure ClipJson where
  file_path : String
  name : String
  sample_rate : ℕ
  original_sr : ℕ
  original_channels : ℕ
  duration_s : ℚ
  is_video : Bool
  creation_time : Option ℚ
  timeline_offset_samples : ℤ
  timeline_offset_s : ℚ
  confidence : ℚ
  analyzed : Bool
  drift_ppm : ℚ
  drift_confidence : ℚ
  drift_corrected : Bool
deriving DecidableEq, Repr

/-- Serialize a clip (skips `samples`). -/
def clipToJson (c : Clip) : ClipJson :=
  { file_path := c.file_path
    name := c.name
    sample_rate := c.sample_rate
    original_sr := c.original_sr
    original_channels := c.original_channels
    duration_s := c.duration_s
    is_video := c.is_video
    creation_time := c.creation_time
    timeline_offset_samples := c.timeline_offset_samples
    timeline_offset_s := c.timeline_offset_s
    confidence := c.confidence
    analyzed := c.analyzed
    drift_ppm := c.drift_ppm
    drift_confidence := c.drift_confidence
    drift_corrected := c.drift_corrected }

/-- Deserialize a clip (`samples` gets `Vec::default()`, i.e. `[]`). -/
def clipOfJson (j : ClipJson) : Clip :=
  { file_path := j.file_path
    name := j.name
    samples := []
    sample_rate := j.sample_rate
    original_sr := j.original_sr
    original_channels := j.original_channels
    duration_s := j.duration_s
    is_video := j.is_video
    creation_time := j.creation_time
    timeline_offset_samples := j.timeline_offset_samples
    timeline_offset_s := j.timeline_offset_s
    confidence := j.confidence
    analyzed := j.analyzed
    drift_ppm := j.drift_ppm
    drift_confidence := j.drift_confidence
    drift_corrected := j.drift_corrected }

/-- The serialized form of a `Track` (everything but `synced_audio` and
`synced_channels`). -/
structure TrackJson where
  name : String
  clips : List ClipJson
  is_reference : Bool
deriving DecidableEq, Repr

/-- Serialize a track. -/
def trackToJson (t : Track) : TrackJson :=
  { name := t.name
    clips := t.clips.map clipToJson
    is_reference := t.is_reference }

/-- Deserialize a track (`synced_audio := None`,
`synced_channels := u32::default() = 0`). -/
def trackOfJson (j : TrackJson) : Track :=
  { name := j.name
    clips := j.clips.map clipOfJson
    is_reference := j.is_reference
    synced_audio := none
    synced_channels := 0 }

/-- The on-disk project structure (`ProjectFile`); `SyncConfig` and
`SyncResult` have no skipped fields and serialize as themselves. -/
structure ProjectFileJson where
  version : ℕ
  app_version : String
  saved_at : String
  tracks : List TrackJson
  config : SyncConfig
  result : Option SyncResult
deriving DecidableEq, Repr

/-- `save_project` (the filesystem write is external; `app_version` and
the `saved_at` timestamp are passed in as the environment inputs they
are). -/
def save_project (appVersion savedAt : String) (tracks : List Track)
    (config : SyncConfig) (result : Option SyncResult) : ProjectFileJson :=
  { version := PROJECT_VERSION
    app_version := appVersion
    saved_at := savedAt
    tracks := tracks.map trackToJson
    config := config
    result := result }

/-- `load_project` (the filesystem read and JSON parse are external):
rejects files newer than the supported schema version. -/
def load_project (p : ProjectFileJson) : Option ProjectFileJson :=
  if p.version > PROJECT_VERSION then none else some p

/-- A saved clip as it looks after reloading: only `samples` is lost. -/
def scrubClip (c : Clip) : Clip := { c with samples := [] }

/-- A saved track as it looks after reloading: `samples`, `synced_audio`
and `synced_channels` are lost (`synced_channels` reloads as `0`). -/
def scrubTrack (t : Track) : Track :=
  { t with clips := t.clips.map scrubClip, synced_audio := none, synced_channels := 0 }

/-- The full save → load round trip, with the loaded tracks decoded back
into `Track` values. -/
def projectRoundTrip (appVersion savedAt : String) (tracks : List Track)
    (config : SyncConfig) (result : Option SyncResult) :
    Option (List Track × SyncConfig × Option SyncResult) :=
  match load_project (save_project appVersion savedAt tracks config result) with
  | none => none
  | some p => some (p.tracks.map trackOfJson, p.config, p.result)

/-! ### Concrete example inputs used by counterexamples and witnesses -/

/-- Build a clip as `load_clip` would populate it (offset fields and
analysis state at their `Clip::new` defaults). -/
def mkClip (fp nm : String) (ct : Option ℚ) (dur : ℚ) (smps : List ℚ) : Clip :=
  { file_path := fp
    name := nm
    samples := smps
    sample_rate := ANALYSIS_SR
    original_sr := 48000
    original_channels := 1
    duration_s := dur
    is_video := false
    creation_time := ct
    timeline_offset_samples := 0
    timeline_offset_s := 0
    confidence := 0
    analyzed := false
    drift_ppm := 0
    drift_confidence := 0
    drift_corrected := false }

/-- Build a fresh track (`Track::new`) with the given clips. -/
def mkTrack (nm : String) (cs : List Clip) : Track :=
  { name := nm
    clips := cs
    is_reference := false
    synced_audio := none
    synced_channels := 1 }

/-- Two-track input: reference candidate A (span 2 s, impulse at 0) and a
track B whose clip correlates at delay −2 with high confidence.  Used to
exercise a negative pass-1 offset and hence a non-trivial normalization
shift. -/
def wTracks : List Track :=
  [mkTrack "A" [mkClip "a" "a" (some 0) 2 [1, 0, 0, 0]],
   mkTrack "B" [mkClip "b" "b" (some 1) 1 [0, 0, 1]]]

/-- Scenario S6 input: track A's clip starts at wall-clock 1000 s, track
B's clip precedes it by 5 s and is uncorrelated enough to stay below the
confidence threshold. -/
def s6Tracks : List Track :=
  [mkTrack "A" [mkClip "sa" "sa" (some 1000) 2 [1, 0, 0]],
   mkTrack "B" [mkClip "sb" "sb" (some 995) 1 [1]]]

/-! ### Claim C6: pass-2 acceptance and warning retraction -/

/-- Track and state used to exhibit the substring-based warning
retraction of pass 2. -/
def cx6Track : Track := mkTrack "T" [mkClip "a.wav" "a.wav" none 1 [1]]

/-- A pass-1 state with two low-confidence warnings, one for clip
`a.wav` (present, confidence 0) and one for a different clip `xa.wav`
whose message contains the string `a.wav`. -/
def cx6State : EngineState :=
  { tracks := [cx6Track]
    warnings := [lowConfMsg 0 "xa.wav", lowConfMsg 0 "a.wav"]
    confidences := []
    clip_offsets := []
    placed := []
    unplaced := [(0, 0)] }

/-- State used for the C7 witness: one track whose clip carries creation
time 995 while the reference origin is 1000. -/
def w7State : EngineState :=
  { tracks := [mkTrack "B" [mkClip "sb" "sb" (some 995) 1 [1]]]
    warnings := []
    confidences := []
    clip_offsets := []
    placed := []
    unplaced := [(0, 0)] }

/-- A track whose `synced_channels` differs from the deserialization
default. -/
def cx8Track : Track :=
  { name := "t"
    clips := []
    is_reference := false
    synced_audio := none
    synced_channels := 1 }

/-! ### Claim C9: `measure_drift` totality -/

/-- A clip placed entirely before timeline zero
(`timeline_offset_samples + len < 0`). -/
def cx9Clip : Clip :=
  { mkClip "c" "c" none 100 [0, 0, 0, 0, 0] with timeline_offset_samples := -10 }

/-! ### Relations and frame data for the pipeline claims -/

/-- Non-overlap of two clips in track order: the first ends no later than
the second starts (`offset[i] + len[i] ≤ offset[j]` at the analysis
rate). -/
def clipNonOverlap (a b : Clip) : Prop :=
  a.end_samples ≤ b.timeline_offset_samples

instance : DecidableRel clipNonOverlap := fun a b =>
  inferInstanceAs (Decidable (_ ≤ _))

/-- The placement skeleton of a clip: offset and sample count.  All
non-overlap and non-negativity facts depend only on it. -/
def skel (c : Clip) : ℤ × ℕ := (c.timeline_offset_samples, c.samples.length)

/-- Non-overlap on skeletons. -/
def skelR (p q : ℤ × ℕ) : Prop := p.1 + (p.2 : ℤ) ≤ q.1

/-- Per-track clip skeletons of a track list. -/
def trackSkels (ts : List Track) : List (List (ℤ × ℕ)) :=
  ts.map (fun t => t.clips.map skel)

/-- The fields of a clip the pipeline never writes. -/
def frozenClip (c : Clip) :
    String × String × List ℚ × ℕ × ℕ × ℕ × ℚ × Bool × Option ℚ × Bool :=
  (c.file_path, c.name, c.samples, c.sample_rate, c.original_sr,
   c.original_channels, c.duration_s, c.is_video, c.creation_time,
   c.drift_corrected)

/-- Frame relation between an input track and its pipeline output: name
and stitcher fields untouched, clips a permutation with all frozen clip
fields intact. -/
def TrackFrame (t0 t : Track) : Prop :=
  t.name = t0.name ∧ t.synced_audio = t0.synced_audio ∧
  t.synced_channels = t0.synced_channels ∧
  (t.clips.map frozenClip).Perm (t0.clips.map frozenClip)

/-- Frame relation between track lists: same length, per-index
`TrackFrame`. -/
def TracksFrame (ts0 ts : List Track) : Prop :=
  ts.length = ts0.length ∧
  ∀ i, i < ts0.length → TrackFrame (getTrackD ts0 i) (getTrackD ts i)

/-- `clipNonOverlap` is transitive (clip lengths are nonnegative). -/
instance : IsTrans Clip clipNonOverlap := by
  constructor
  intro a b c hab hbc
  unfold clipNonOverlap Clip.end_samples at *
  have : (0 : ℤ) ≤ (b.samples.length : ℤ) := by positivity
  omega

/-! ### Inputs and outputs used as witnesses for the pipeline claims -/

def defaultEngineState : EngineState :=
  { tracks := []
    warnings := []
    confidences := []
    clip_offsets := []
    placed := []
    unplaced := [] }

def defaultSyncResult : SyncResult :=
  { reference_track_index := 0
    total_timeline_samples := 0
    total_timeline_s := 0
    sample_rate := 0
    clip_offsets := []
    avg_confidence := 0
    drift_detected := false
    warnings := [] }

/-- Phase-6.5 output of the two-track witness session. -/
def wFix : ℕ × EngineState :=
  (analyzeToFix wTracks defaultSyncConfig).getD (0, defaultEngineState)

/-- Post-normalization output of the two-track witness session. -/
def wNorm : ℕ × EngineState × ℤ :=
  (analyzeToNorm wTracks defaultSyncConfig).getD (0, defaultEngineState, 0)

/-- Final output of the two-track witness session. -/
def wOut : List Track × SyncResult :=
  (analyze wTracks defaultSyncConfig).getD ([], defaultSyncResult)

/-! ### Theorems -/

/-! ### Facts about the `max_by` fold -/

/-- Both arguments bound the result of one `pickLast` step, and the result
is one of the two arguments. -/
theorem pickLast_cases {α : Type _} (key : α → ℚ) (acc y : ℕ × α) :
    (pickLast key acc y = acc ∨ pickLast key acc y = y) ∧
    key acc.2 ≤ key (pickLast key acc y).2 ∧
    key y.2 ≤ key (pickLast key acc y).2 := by
  unfold pickLast
  split
  · exact ⟨Or.inl rfl, le_refl _, le_of_lt (by assumption)⟩
  · exact ⟨Or.inr rfl, le_of_not_lt (by assumption), le_refl _⟩

/-- Full specification of the `max_by` fold over an enumerated list: the
result is the seed or an indexed element, it bounds every element, and
every element strictly after its index is strictly below it (Rust's
`max_by` keeps the accumulator only on `Greater`, so the last maximal
element wins). -/
theorem pickLast_fold_spec {α : Type _} (key : α → ℚ) (d : α) :
    ∀ (l : List α) (n : ℕ) (acc : ℕ × α),
    ((l.enumFrom n).foldl (pickLast key) acc = acc ∨
      ∃ j, j < l.length ∧
        (l.enumFrom n).foldl (pickLast key) acc = (n + j, l.getD j d)) ∧
    key acc.2 ≤ key ((l.enumFrom n).foldl (pickLast key) acc).2 ∧
    (∀ j, j < l.length →
      key (l.getD j d) ≤ key ((l.enumFrom n).foldl (pickLast key) acc).2) ∧
    (∀ j, j < l.length →
      ((l.enumFrom n).foldl (pickLast key) acc).1 < n + j →
      key (l.getD j d) < key ((l.enumFrom n).foldl (pickLast key) acc).2)
  | [], n, acc => by simp
  | a :: l', n, acc => by
    have hrw : (a :: l').enumFrom n = (n, a) :: l'.enumFrom (n + 1) := rfl
    rw [hrw, List.foldl_cons]
    obtain ⟨ih1, ih2, ih3, ih4⟩ := pickLast_fold_spec key d l' (n + 1) (pickLast key acc (n, a))
    obtain ⟨hor, hacc, hy⟩ := pickLast_cases key acc (n, a)
    refine ⟨?_, le_trans hacc ih2, ?_, ?_⟩
    · rcases ih1 with h | ⟨j, hj, h⟩
      · rcases hor with h2 | h2
        · exact Or.inl (h.trans h2)
        · refine Or.inr ⟨0, by simp, ?_⟩
          rw [h, h2]
          simp
      · refine Or.inr ⟨j + 1, by simp only [List.length_cons]; omega, ?_⟩
        rw [h, List.getD_cons_succ]
        congr 1
        omega
    · intro j hj
      cases j with
      | zero => simpa using le_trans hy ih2
      | succ j => simpa using ih3 j (by simpa using Nat.lt_of_succ_lt_succ hj)
    · intro j hj hlt
      cases j with
      | zero =>
        by_cases hk : key acc.2 > key a
        · have : key ((a :: l').getD 0 d) = key a := by simp
          rw [this]
          exact lt_of_lt_of_le hk (le_trans hacc ih2)
        · have h2 : pickLast key acc (n, a) = (n, a) := by simp [pickLast, hk]
          rcases ih1 with h | ⟨j, hj2, h⟩
          · rw [h, h2] at hlt; simp at hlt
          · rw [h] at hlt; simp at hlt; omega
      | succ j =>
        have := ih4 j (by simp only [List.length_cons] at hj; omega) (by omega)
        simpa using this

/-- Specification of `maxIdxByKeyLast` on a nonempty list: in range, a
maximizer of `key`, and the last such maximizer. -/
theorem maxIdxByKeyLast_spec {α : Type _} (key : α → ℚ) (d : α) (L : List α)
    (h : L ≠ []) :
    maxIdxByKeyLast key L < L.length ∧
    (∀ j, j < L.length →
      key (L.getD j d) ≤ key (L.getD (maxIdxByKeyLast key L) d)) ∧
    (∀ j, j < L.length → maxIdxByKeyLast key L < j →
      key (L.getD j d) < key (L.getD (maxIdxByKeyLast key L) d)) := by
  cases L with
  | nil => exact absurd rfl h
  | cons a L' =>
    have hrw : maxIdxByKeyLast key (a :: L')
        = ((L'.enumFrom 1).foldl (pickLast key) (0, a)).1 := rfl
    obtain ⟨h1, h2, h3, h4⟩ := pickLast_fold_spec key d L' 1 (0, a)
    have hval : key ((L'.enumFrom 1).foldl (pickLast key) (0, a)).2
        = key ((a :: L').getD ((L'.enumFrom 1).foldl (pickLast key) (0, a)).1 d) := by
      rcases h1 with h | ⟨j, hj, h⟩
      · rw [h]; simp
      · rw [h]
        have : (1 : ℕ) + j = j + 1 := by omega
        simp [this]
    have hbound : ((L'.enumFrom 1).foldl (pickLast key) (0, a)).1 < (a :: L').length := by
      rcases h1 with h | ⟨j, hj, h⟩
      · rw [h]; simp
      · rw [h]; simp only [List.length_cons]; omega
    refine ⟨by rw [hrw]; exact hbound, ?_, ?_⟩
    · intro j hj
      rw [hrw, ← hval]
      cases j with
      | zero => simpa using h2
      | succ j => simpa using h3 j (by simp only [List.length_cons] at hj; omega)
    · intro j hj hlt
      rw [hrw, ← hval]
      cases j with
      | zero => rw [hrw] at hlt; omega
      | succ j =>
        rw [hrw] at hlt
        have := h4 j (by simp only [List.length_cons] at hj; omega) (by omega)
        simpa using this

/-! ### Correlator lemmas -/

theorem normSignal_length (xs : List ℚ) : (normSignal xs).length = xs.length := by
  unfold normSignal
  dsimp only
  split <;> simp

theorem fft_correlate_length (a b : List ℚ) :
    (fft_correlate a b).length = a.length + b.length - 1 := by
  simp [fft_correlate]

theorem computeDelayCorr_length (r t : List ℚ) :
    (computeDelayCorr r t).length = r.length + t.length - 1 := by
  simp [computeDelayCorr, fft_correlate_length, normSignal_length]

/-- Reading inside a `drop`/`take` slice. -/
theorem getD_drop_take (l : List ℚ) (lo len j : ℕ) (hj : j < len) :
    ((l.drop lo).take len).getD j 0 = l.getD (lo + j) 0 := by
  simp [List.getD_eq_getElem?_getD, List.getElem?_take, hj, List.getElem?_drop]

/-- Specification of the peak search of `compute_delay`: for any
correlation buffer long enough to contain the center, the chosen index
lies in the searched window `[searchLo, searchHi)`, maximizes `|corr|`
there, and is the last index attaining the maximum. -/
theorem computeDelayPeak_spec (corr : List ℚ) (targetLen sr : ℕ)
    (maxOff : Option ℚ) (hne : targetLen - 1 < corr.length) :
    searchLo targetLen sr maxOff ≤ computeDelayPeak corr targetLen sr maxOff ∧
    computeDelayPeak corr targetLen sr maxOff < searchHi targetLen corr.length sr maxOff ∧
    (∀ i, searchLo targetLen sr maxOff ≤ i →
      i < searchHi targetLen corr.length sr maxOff →
      |corr.getD i 0| ≤ |corr.getD (computeDelayPeak corr targetLen sr maxOff) 0|) ∧
    (∀ i, searchLo targetLen sr maxOff ≤ i →
      i < searchHi targetLen corr.length sr maxOff →
      computeDelayPeak corr targetLen sr maxOff < i →
      |corr.getD i 0| < |corr.getD (computeDelayPeak corr targetLen sr maxOff) 0|) := by
  cases maxOff with
  | none =>
    have hcorr : corr ≠ [] := by
      intro h
      rw [h] at hne
      simp at hne
    obtain ⟨h1, h2, h3⟩ := maxIdxByKeyLast_spec (fun x => |x|) 0 corr hcorr
    refine ⟨Nat.zero_le _, ?_, ?_, ?_⟩
    · simpa [computeDelayPeak, searchHi, maxByAbsLast] using h1
    · intro i _ hi
      simpa [computeDelayPeak, searchHi, maxByAbsLast] using
        h2 i (by simpa [searchHi] using hi)
    · intro i _ hi hlt
      simpa [computeDelayPeak, searchHi, maxByAbsLast] using
        h3 i (by simpa [searchHi] using hi) (by simpa [computeDelayPeak, maxByAbsLast] using hlt)
  | some maxS =>
    set k := f2usize (maxS * (sr : ℚ)) with hk
    set lo := targetLen - 1 - k with hlo
    set hi := min (targetLen - 1 + k + 1) corr.length with hhi
    have hlo_def : searchLo targetLen sr (some maxS) = lo := rfl
    have hhi_def : searchHi targetLen corr.length sr (some maxS) = hi := rfl
    have hlo_lt_hi : lo < hi := by
      have h1 : lo ≤ targetLen - 1 := Nat.sub_le _ _
      omega
    have hhi_le : hi ≤ corr.length := min_le_right _ _
    set region := (corr.drop lo).take (hi - lo) with hregion
    have hreglen : region.length = hi - lo := by
      rw [hregion]
      simp [List.length_take, List.length_drop]
      omega
    have hregne : region ≠ [] := by
      intro h
      rw [h] at hreglen
      simp at hreglen
      omega
    have hpdef : computeDelayPeak corr targetLen sr (some maxS)
        = maxIdxByKeyLast (fun x => |x|) region + lo := by
      simp [computeDelayPeak, maxByAbsLast, searchLo, searchHi, ← hk, ← hlo, ← hhi, ← hregion]
    obtain ⟨h1, h2, h3⟩ := maxIdxByKeyLast_spec (fun x => |x|) 0 region hregne
    have hregD : ∀ j, j < hi - lo → region.getD j 0 = corr.getD (lo + j) 0 := by
      intro j hj
      rw [hregion]
      exact getD_drop_take corr lo (hi - lo) j hj
    have hplt : maxIdxByKeyLast (fun x => |x|) region < hi - lo := by
      rw [← hreglen]; exact h1
    have hpD : region.getD (maxIdxByKeyLast (fun x => |x|) region) 0
        = corr.getD (maxIdxByKeyLast (fun x => |x|) region + lo) 0 := by
      rw [hregD _ hplt]
      congr 1
      omega
    refine ⟨?_, ?_, ?_, ?_⟩
    · rw [hpdef, hlo_def]; omega
    · rw [hpdef, hhi_def]; omega
    · intro i hge hlt
      rw [hlo_def] at hge
      rw [hhi_def] at hlt
      have hj : i - lo < hi - lo := by omega
      have := h2 (i - lo) (by rw [hreglen]; exact hj)
      rw [hregD _ hj] at this
      have hilo : lo + (i - lo) = i := by omega
      rw [hilo] at this
      rw [hpdef, ← hpD]
      simpa using this
    · intro i hge hlt hpi
      rw [hlo_def] at hge
      rw [hhi_def] at hlt
      rw [hpdef] at hpi
      have hj : i - lo < hi - lo := by omega
      have := h3 (i - lo) (by rw [hreglen]; exact hj) (by omega)
      rw [hregD _ hj] at this
      have hilo : lo + (i - lo) = i := by omega
      rw [hilo] at this
      rw [hpdef, ← hpD]
      simpa using this

/-- The delay returned by `compute_delay` on nonempty inputs is the peak
index minus `len(target) − 1`. -/
theorem compute_delay_fst (reference target : List ℚ) (sr : ℕ)
    (maxOff : Option ℚ) (href : reference ≠ []) (htgt : target ≠ []) :
    (compute_delay reference target sr maxOff).1
      = (computeDelayPeak (computeDelayCorr reference target) target.length sr maxOff : ℤ)
        - ((target.length : ℤ) - 1) := by
  have h1 : reference.isEmpty = false := by
    cases reference
    · exact absurd rfl href
    · rfl
  have h2 : target.isEmpty = false := by
    cases target
    · exact absurd rfl htgt
    · rfl
  simp [compute_delay, h1, h2]

/-- The center of the correlation buffer is a valid index whenever both
inputs are nonempty. -/
theorem center_lt_corr_length (reference target : List ℚ)
    (href : reference ≠ []) (htgt : target ≠ []) :
    target.length - 1 < (computeDelayCorr reference target).length := by
  rw [computeDelayCorr_length]
  have h1 : 1 ≤ reference.length := List.length_pos.mpr href
  have h2 : 1 ≤ target.length := List.length_pos.mpr htgt
  omega

/-- C4, counterexample.  With `reference = [0, 1, 5]`, `target = [1]`,
`sr = 2`, `max_offset_s = 3/4`: `max_offset_s · sr = 3/2`, whose nearest
integer is `2` while the code's `as usize` cast truncates to `1`.  The
correlation is `[0, 1/5, 1]` and `center = 0`, so the rounded window
`[center − 2, center + 2]` contains index `2`, where `|corr|` is strictly
larger than at the returned peak index `1` (the returned delay is
`1 − (1 − 1) = 1`).  Hence the returned peak index is not the argmax over
the window built from the rounded `k`, refuting the claim. -/
theorem C4_counterexample :
    (compute_delay [0, 1, 5] [1] 2 (some (3 / 4))).1 = 1 ∧
    round ((3 : ℚ) / 4 * 2) = 2 ∧
    f2usize ((3 : ℚ) / 4 * 2) = 1 ∧
    (computeDelayCorr [0, 1, 5] [1]).length = 3 ∧
    |(computeDelayCorr [0, 1, 5] [1]).getD 1 0|
      < |(computeDelayCorr [0, 1, 5] [1]).getD 2 0| := by
  refine ⟨?_, ?_, ?_, ?_, ?_⟩ <;> with_unfolding_all decide

/-- C4, amended: with `k` the truncation `f2usize (max_offset_s · sr)`
(not the rounding), the returned peak index of `compute_delay` lies in
`[center − k, min (center + k + 1) n)` and maximizes `|corr|` there; the
returned delay is that index minus `len(target) − 1`. -/
theorem C4_amended (reference target : List ℚ) (sr : ℕ) (maxS : ℚ)
    (href : reference ≠ []) (htgt : target ≠ []) :
    (compute_delay reference target sr (some maxS)).1
      = (computeDelayPeak (computeDelayCorr reference target) target.length sr (some maxS) : ℤ)
        - ((target.length : ℤ) - 1) ∧
    searchLo target.length sr (some maxS)
      ≤ computeDelayPeak (computeDelayCorr reference target) target.length sr (some maxS) ∧
    computeDelayPeak (computeDelayCorr reference target) target.length sr (some maxS)
      < searchHi target.length (computeDelayCorr reference target).length sr (some maxS) ∧
    (∀ i, searchLo target.length sr (some maxS) ≤ i →
      i < searchHi target.length (computeDelayCorr reference target).length sr (some maxS) →
      |(computeDelayCorr reference target).getD i 0|
        ≤ |(computeDelayCorr reference target).getD
            (computeDelayPeak (computeDelayCorr reference target) target.length sr (some maxS)) 0|) := by
  obtain ⟨h1, h2, h3, _⟩ := computeDelayPeak_spec (computeDelayCorr reference target)
    target.length sr (some maxS) (center_lt_corr_length reference target href htgt)
  exact ⟨compute_delay_fst reference target sr (some maxS) href htgt, h1, h2, h3⟩

/-- C4, witness at `reference = [1, 0]`, `target = [1]`, `sr = 8000`,
`max_offset_s = 1`. -/
theorem C4_amended_witness :
    ([1, 0] : List ℚ) ≠ [] ∧ ([1] : List ℚ) ≠ [] ∧
    ((compute_delay [1, 0] [1] 8000 (some 1)).1
      = (computeDelayPeak (computeDelayCorr [1, 0] [1]) 1 8000 (some 1) : ℤ) - ((1 : ℤ) - 1) ∧
    searchLo 1 8000 (some 1)
      ≤ computeDelayPeak (computeDelayCorr [1, 0] [1]) 1 8000 (some 1) ∧
    computeDelayPeak (computeDelayCorr [1, 0] [1]) 1 8000 (some 1)
      < searchHi 1 (computeDelayCorr [1, 0] [1]).length 8000 (some 1) ∧
    (∀ i, searchLo 1 8000 (some 1) ≤ i →
      i < searchHi 1 (computeDelayCorr [1, 0] [1]).length 8000 (some 1) →
      |(computeDelayCorr [1, 0] [1]).getD i 0|
        ≤ |(computeDelayCorr [1, 0] [1]).getD
            (computeDelayPeak (computeDelayCorr [1, 0] [1]) 1 8000 (some 1)) 0|)) :=
  ⟨by with_unfolding_all decide, by with_unfolding_all decide,
    C4_amended [1, 0] [1] 8000 1 (by with_unfolding_all decide) (by with_unfolding_all decide)⟩

/-- C5, counterexample.  With `reference = [2, 2]`, `target = [1]` the
normalized correlation is `[1, 1]`: indices 0 and 1 attain the same
maximal `|corr|`, yet the returned delay is `1`, i.e. the peak index is
`1`, not the lowest tied index `0` (Rust's `max_by` returns the last
maximal element), refuting the claim. -/
theorem C5_counterexample :
    (compute_delay [2, 2] [1] 8000 none).1 = 1 ∧
    (computeDelayCorr [2, 2] [1]).length = 2 ∧
    |(computeDelayCorr [2, 2] [1]).getD 0 0|
      = |(computeDelayCorr [2, 2] [1]).getD 1 0| := by
  refine ⟨?_, ?_, ?_⟩ <;> with_unfolding_all decide

/-- C5, amended: whenever several indices in the searched range attain
the same maximal `|corr|`, the HIGHEST (last) such index is selected, and
the returned delay is that index minus `len(target) − 1`. -/
theorem C5_amended (reference target : List ℚ) (sr : ℕ) (maxOff : Option ℚ)
    (href : reference ≠ []) (htgt : target ≠ []) :
    (compute_delay reference target sr maxOff).1
      = (computeDelayPeak (computeDelayCorr reference target) target.length sr maxOff : ℤ)
        - ((target.length : ℤ) - 1) ∧
    (∀ i, searchLo target.length sr maxOff ≤ i →
      i < searchHi target.length (computeDelayCorr reference target).length sr maxOff →
      |(computeDelayCorr reference target).getD i 0|
        = |(computeDelayCorr reference target).getD
            (computeDelayPeak (computeDelayCorr reference target) target.length sr maxOff) 0| →
      i ≤ computeDelayPeak (computeDelayCorr reference target) target.length sr maxOff) := by
  obtain ⟨_, _, _, h4⟩ := computeDelayPeak_spec (computeDelayCorr reference target)
    target.length sr maxOff (center_lt_corr_length reference target href htgt)
  refine ⟨compute_delay_fst reference target sr maxOff href htgt, ?_⟩
  intro i hge hlt heq
  by_contra hgt
  exact absurd heq (ne_of_lt (h4 i hge hlt (by omega)))

/-- C5, witness at `reference = [1, 0]`, `target = [1]`, unrestricted
search. -/
theorem C5_amended_witness :
    ([1, 0] : List ℚ) ≠ [] ∧ ([1] : List ℚ) ≠ [] ∧
    ((compute_delay [1, 0] [1] 8000 none).1
      = (computeDelayPeak (computeDelayCorr [1, 0] [1]) 1 8000 none : ℤ) - ((1 : ℤ) - 1) ∧
    (∀ i, searchLo 1 8000 none ≤ i →
      i < searchHi 1 (computeDelayCorr [1, 0] [1]).length 8000 none →
      |(computeDelayCorr [1, 0] [1]).getD i 0|
        = |(computeDelayCorr [1, 0] [1]).getD
            (computeDelayPeak (computeDelayCorr [1, 0] [1]) 1 8000 none) 0| →
      i ≤ computeDelayPeak (computeDelayCorr [1, 0] [1]) 1 8000 none)) :=
  ⟨by with_unfolding_all decide, by with_unfolding_all decide,
    C5_amended [1, 0] [1] 8000 none (by with_unfolding_all decide) (by with_unfolding_all decide)⟩

/-! ### Indexed-update lemmas -/

theorem length_modifyIdx {α : Type _} (f : α → α) :
    ∀ (i : ℕ) (l : List α), (modifyIdx f i l).length = l.length := by
  intro i l
  induction l generalizing i with
  | nil => cases i <;> rfl
  | cons a l ih =>
    cases i with
    | zero => rfl
    | succ n => simpa [modifyIdx] using ih n

theorem getD_modifyIdx_self {α : Type _} (f : α → α) (d : α) :
    ∀ (i : ℕ) (l : List α), i < l.length →
      (modifyIdx f i l).getD i d = f (l.getD i d) := by
  intro i l
  induction l generalizing i with
  | nil => intro h; simp at h
  | cons a l ih =>
    intro h
    cases i with
    | zero => rfl
    | succ n => simpa [modifyIdx] using ih n (by simpa using Nat.lt_of_succ_lt_succ h)

theorem getD_modifyIdx_ne {α : Type _} (f : α → α) (d : α) :
    ∀ (i j : ℕ) (l : List α), i ≠ j →
      (modifyIdx f i l).getD j d = l.getD j d := by
  intro i j l
  induction l generalizing i j with
  | nil => intro _; cases i <;> rfl
  | cons a l ih =>
    intro h
    cases i with
    | zero =>
      cases j with
      | zero => exact absurd rfl h
      | succ m => rfl
    | succ n =>
      cases j with
      | zero => rfl
      | succ m => simpa [modifyIdx] using ih n m (by omega)

theorem getTrackD_modifyClip_self (ts : List Track) (tc : ℕ × ℕ)
    (f : Clip → Clip) (h1 : tc.1 < ts.length) :
    getTrackD (modifyClip ts tc f) tc.1
      = { getTrackD ts tc.1 with clips := modifyIdx f tc.2 (getTrackD ts tc.1).clips } := by
  unfold modifyClip getTrackD
  exact getD_modifyIdx_self _ defaultTrack tc.1 ts h1

theorem getClipD_modifyClip_self (ts : List Track) (tc : ℕ × ℕ)
    (f : Clip → Clip) (h1 : tc.1 < ts.length)
    (h2 : tc.2 < (getTrackD ts tc.1).clips.length) :
    getClipD (modifyClip ts tc f) tc = f (getClipD ts tc) := by
  unfold getClipD
  rw [getTrackD_modifyClip_self ts tc f h1]
  exact getD_modifyIdx_self f defaultClip tc.2 (getTrackD ts tc.1).clips h2

/-- C6, counterexample.  When pass 2 improves clip `a.wav` to confidence
4 (above the threshold), the retraction `warnings.retain(|w|
!w.contains(clip_name))` removes BOTH warnings — including the one that
belongs to the different clip `xa.wav`, whose message contains `a.wav`
as a substring — leaving the warning list empty.  This refutes the claim
that exactly the clip's own warning (and no other clip's) is removed. -/
theorem C6_counterexample :
    (pass2Apply cx6State (0, 0) 5 4 8000).warnings = [] ∧
    cx6State.warnings.length = 2 ∧
    (getClipD cx6State.tracks (0, 0)).name = "a.wav" ∧
    strContains (lowConfMsg 0 "xa.wav") "xa.wav" = true ∧
    ("xa.wav" : String) ≠ "a.wav" := by
  refine ⟨?_, ?_, ?_, ?_, ?_⟩ <;> with_unfolding_all decide

/-- C6, amended: pass 2 overwrites the clip's offset and confidence only
when the new confidence is strictly higher (otherwise the state is
unchanged), and when the new confidence also reaches the threshold the
surviving warnings are exactly those whose message does NOT contain the
clip's name as a substring — so the clip's own low-confidence warning is
removed, but warnings of other clips whose messages contain this clip's
name are removed as well.  Below the threshold the warnings are kept. -/
theorem C6_amended (st : EngineState) (tc : ℕ × ℕ) (delay : ℤ) (conf : ℚ)
    (sr : ℕ) (h1 : tc.1 < st.tracks.length)
    (h2 : tc.2 < (getTrackD st.tracks tc.1).clips.length) :
    (¬ (getClipD st.tracks tc).confidence < conf →
      pass2Apply st tc delay conf sr = st) ∧
    ((getClipD st.tracks tc).confidence < conf →
      (getClipD (pass2Apply st tc delay conf sr).tracks tc).timeline_offset_samples = delay ∧
      (getClipD (pass2Apply st tc delay conf sr).tracks tc).confidence = conf ∧
      (CONFIDENCE_THRESHOLD ≤ conf →
        ∀ w, w ∈ (pass2Apply st tc delay conf sr).warnings ↔
          (w ∈ st.warnings ∧ strContains w (getClipD st.tracks tc).name = false)) ∧
      (conf < CONFIDENCE_THRESHOLD →
        (pass2Apply st tc delay conf sr).warnings = st.warnings)) := by
  constructor
  · intro h
    unfold pass2Apply
    rw [if_neg h]
  · intro h
    refine ⟨?_, ?_, ?_, ?_⟩
    · unfold pass2Apply
      rw [if_pos h]
      rw [getClipD_modifyClip_self st.tracks tc _ h1 h2]
    · unfold pass2Apply
      rw [if_pos h]
      rw [getClipD_modifyClip_self st.tracks tc _ h1 h2]
    · intro hth w
      unfold pass2Apply
      rw [if_pos h]
      simp only [if_pos hth, List.mem_filter, Bool.not_eq_true']
    · intro hth
      unfold pass2Apply
      rw [if_pos h]
      simp only [if_neg (not_le.mpr hth)]

/-- C6, witness: the amended behavior at the concrete state `cx6State`
(clip indices in range; the improvement branch applies). -/
theorem C6_amended_witness :
    (0 : ℕ) < cx6State.tracks.length ∧
    (0 : ℕ) < (getTrackD cx6State.tracks 0).clips.length ∧
    ((¬ (getClipD cx6State.tracks (0, 0)).confidence < 4 →
      pass2Apply cx6State (0, 0) 5 4 8000 = cx6State) ∧
    ((getClipD cx6State.tracks (0, 0)).confidence < 4 →
      (getClipD (pass2Apply cx6State (0, 0) 5 4 8000).tracks (0, 0)).timeline_offset_samples = 5 ∧
      (getClipD (pass2Apply cx6State (0, 0) 5 4 8000).tracks (0, 0)).confidence = 4 ∧
      (CONFIDENCE_THRESHOLD ≤ 4 →
        ∀ w, w ∈ (pass2Apply cx6State (0, 0) 5 4 8000).warnings ↔
          (w ∈ cx6State.warnings ∧
            strContains w (getClipD cx6State.tracks (0, 0)).name = false)) ∧
      ((4 : ℚ) < CONFIDENCE_THRESHOLD →
        (pass2Apply cx6State (0, 0) 5 4 8000).warnings = cx6State.warnings))) :=
  ⟨by with_unfolding_all decide, by with_unfolding_all decide,
    C6_amended cx6State (0, 0) 5 4 8000
      (by with_unfolding_all decide) (by with_unfolding_all decide)⟩

/-! ### Claim C7: scenario S6 and the metadata fallback -/

/-- C7, counterexample.  Running the full pipeline on the S6 input: the
metadata fallback computes `estimated_offset = (995 − 1000) · 8000 =
−40000` but the code accepts only non-negative estimates, so track B's
clip keeps its pass-1 offset 0, nothing shifts, and
`total_timeline_samples` is 3 (the reference clip's length) — not grown
by 40000 — refuting the claimed assignment of −40000 and the +40000
normalization shift (which would have left track A's clip at offset
40000 and the total at 40003). -/
theorem C7_counterexample :
    (analyze s6Tracks defaultSyncConfig).map (fun o =>
        (o.2.total_timeline_samples,
         (getClipD o.1 (1, 0)).timeline_offset_samples,
         (getClipD o.1 (0, 0)).timeline_offset_samples))
      = some (3, 0, 0) ∧
    truncQ (((995 : ℚ) - 1000) * (8000 : ℚ)) = -40000 := by
  refine ⟨?_, ?_⟩ <;> with_unfolding_all decide

/-- C7, amended: when the clip's creation time precedes the reference
origin enough to make the estimated offset negative, the metadata
fallback rejects the estimate and changes nothing: clip offsets, the
offsets map and the warnings are left exactly as passes 1–2 produced
them (in particular no −40000 offset is written and no +40000
normalization shift arises from the fallback). -/
theorem C7_amended (sr : ℕ) (origin : ℚ) (st : EngineState) (tc : ℕ × ℕ)
    (ct : ℚ) (hct : (getClipD st.tracks tc).creation_time = some ct)
    (hneg : truncQ ((ct - origin) * (sr : ℚ)) < 0) :
    fallbackStep sr (some origin) st tc = st := by
  unfold fallbackStep
  by_cases h : (getClipD st.tracks tc).confidence < CONFIDENCE_THRESHOLD
  · rw [if_pos h, hct]
    simp only [if_neg (not_le.mpr hneg)]
  · rw [if_neg h]

/-- C7, witness: the fallback with origin 1000 and creation time 995 at
8 kHz computes −40000 < 0 and leaves the state untouched. -/
theorem C7_amended_witness :
    (getClipD w7State.tracks (0, 0)).creation_time = some 995 ∧
    truncQ (((995 : ℚ) - 1000) * ((8000 : ℕ) : ℚ)) < 0 ∧
    fallbackStep 8000 (some 1000) w7State (0, 0) = w7State :=
  ⟨by with_unfolding_all decide, by with_unfolding_all decide,
    C7_amended 8000 1000 w7State (0, 0) 995
      (by with_unfolding_all decide) (by with_unfolding_all decide)⟩

/-! ### Claim C8: project save/load round trip -/

/-- Clip round trip: only `samples` is lost. -/
theorem clip_roundtrip (c : Clip) : clipOfJson (clipToJson c) = scrubClip c := rfl

/-- Track round trip: `samples`, `synced_audio` and `synced_channels` are
lost. -/
theorem track_roundtrip (t : Track) : trackOfJson (trackToJson t) = scrubTrack t := by
  unfold trackOfJson trackToJson scrubTrack
  simp [List.map_map, Function.comp_def, clip_roundtrip]

/-- C8, counterexample.  `Track.synced_channels` is `#[serde(skip)]` but
is not a sample buffer: a track saved with `synced_channels = 1` loads
with `synced_channels = 0` (the `u32` default), so the round trip does
not preserve every field except the two sample buffers. -/
theorem C8_counterexample :
    projectRoundTrip "1.0" "now" [cx8Track] defaultSyncConfig none
      = some ([{ cx8Track with synced_channels := 0 }], defaultSyncConfig, none) ∧
    cx8Track.synced_channels = 1 ∧ (1 : ℕ) ≠ 0 := by
  refine ⟨?_, ?_, ?_⟩ <;> with_unfolding_all decide

/-- C8, amended: the save → load round trip of any project state
preserves every field of every `Track`, `Clip`, `SyncConfig` and
`SyncResult` except the non-serialized fields: `Clip.samples` (reloaded
as `[]`), `Track.synced_audio` (reloaded as `None`) and
`Track.synced_channels` (reloaded as `0`). -/
theorem C8_amended (appVersion savedAt : String) (tracks : List Track)
    (config : SyncConfig) (result : Option SyncResult) :
    projectRoundTrip appVersion savedAt tracks config result
      = some (tracks.map scrubTrack, config, result) := by
  unfold projectRoundTrip load_project save_project
  simp only [PROJECT_VERSION]
  rw [if_neg (by omega)]
  simp [List.map_map, Function.comp_def, track_roundtrip]

/-- C9, counterexample.  For a clip whose placement ends before timeline
zero, `clip_end.min(ref_len) as usize` wraps the negative `i64` to a huge
`usize` (`2^64 − 5`), the overlap guard passes, and the very first loop
iteration slices `ref_timeline[0 .. 240000]` out of bounds — a panic
(modelled as `none`).  `measure_drift` is therefore not total over its
public interface. -/
theorem C9_counterexample :
    measure_drift [0] cx9Clip 8000 = none ∧ cx9Clip.end_samples < 0 := by
  refine ⟨?_, ?_⟩ <;> with_unfolding_all decide

/-- Rat floor of a natural number cast. -/
theorem ratFloor_natCast (n : ℕ) : ((n : ℚ)).floor = (n : ℤ) := by
  rw [Rat.floor_def']
  simp

/-- `f2usize` of a product of natural casts is the product. -/
theorem f2usize_natMul (k sr : ℕ) : f2usize ((k : ℚ) * (sr : ℚ)) = k * sr := by
  unfold f2usize
  have h1 : ((k : ℚ) * (sr : ℚ)) = ((k * sr : ℕ) : ℚ) := by push_cast; ring
  rw [h1, max_eq_left (by positivity), ratFloor_natCast]
  exact Int.toNat_natCast _

/-- A nonnegative integer's wrap to `usize` is bounded by the integer. -/
theorem intToUsize_le_toNat (x : ℤ) (h : 0 ≤ x) : intToUsize x ≤ x.toNat := by
  unfold intToUsize
  have hm : (0 : ℤ) < 18446744073709551616 := by norm_num
  have h1 : x % 18446744073709551616 ≤ x := by
    have h2 : 0 ≤ x / 18446744073709551616 := Int.ediv_nonneg h (le_of_lt hm)
    have h3 := Int.emod_add_ediv x 18446744073709551616
    nlinarith [Int.emod_nonneg x (ne_of_gt hm)]
  have : ((2 : ℤ) ^ 64) = 18446744073709551616 := by norm_num
  rw [this]
  exact Int.toNat_le_toNat h1

/-- The sliding loop terminates successfully whenever the loop bound is
inside the reference buffer, the stride is positive and the fuel covers
the remaining distance. -/
theorem driftLoopGo_isSome (refTimeline : List ℚ) (clip : Clip) (sr : ℕ)
    (win stride overlapEnd overlapStart : ℕ) (clipStart : ℤ)
    (hle : overlapEnd ≤ refTimeline.length) (hstride : 1 ≤ stride) :
    ∀ (fuel pos : ℕ) (acc : List (ℚ × ℚ)),
      overlapEnd + 1 ≤ pos + fuel →
      (driftLoopGo refTimeline clip sr win stride overlapEnd overlapStart
        clipStart fuel pos acc).isSome := by
  intro fuel
  induction fuel with
  | zero =>
    intro pos acc hfuel
    unfold driftLoopGo
    rw [if_neg (by omega)]
    rfl
  | succ fuel ih =>
    intro pos acc hfuel
    unfold driftLoopGo
    by_cases hcond : pos + win ≤ overlapEnd
    · rw [if_pos hcond, if_pos (show pos + win ≤ refTimeline.length by omega)]
      dsimp only
      split
      · exact ih (pos + stride) acc (by omega)
      · split
        · exact ih (pos + stride) acc (by omega)
        · exact ih (pos + stride) _ (by omega)
    · rw [if_neg hcond]
      rfl

/-- C9, amended: for every positive sample rate and every clip whose
placement does not end before timeline zero
(`0 ≤ timeline_offset_samples + len`), `measure_drift` keeps every
buffer access in bounds and returns a `(ppm, r_squared)` pair.  (The
counterexample shows the `0 ≤ end` restriction is necessary: a clip
ending before zero wraps the overlap bound and panics.) -/
theorem C9_amended (refTimeline : List ℚ) (clip : Clip) (sr : ℕ)
    (hsr : 1 ≤ sr) (hend : 0 ≤ clip.end_samples) :
    (measure_drift refTimeline clip sr).isSome := by
  unfold measure_drift
  dsimp only
  have hend' : 0 ≤ clip.timeline_offset_samples + (clip.length_samples : ℤ) := hend
  have hminnn : 0 ≤ min (clip.timeline_offset_samples + (clip.length_samples : ℤ))
      ((refTimeline.length : ℕ) : ℤ) := by
    apply le_min hend'
    positivity
  have hle : intToUsize (min (clip.timeline_offset_samples + (clip.length_samples : ℤ))
      ((refTimeline.length : ℕ) : ℤ)) ≤ refTimeline.length := by
    calc intToUsize (min (clip.timeline_offset_samples + (clip.length_samples : ℤ))
          ((refTimeline.length : ℕ) : ℤ))
        ≤ (min (clip.timeline_offset_samples + (clip.length_samples : ℤ))
          ((refTimeline.length : ℕ) : ℤ)).toNat := intToUsize_le_toNat _ hminnn
      _ ≤ (((refTimeline.length : ℕ) : ℤ)).toNat := Int.toNat_le_toNat (min_le_right _ _)
      _ = refTimeline.length := Int.toNat_natCast _
  have hstride : 1 ≤ f2usize (15 * (sr : ℚ)) := by
    have h15 : ((15 : ℚ)) = ((15 : ℕ) : ℚ) := by norm_num
    rw [h15, f2usize_natMul]
    omega
  rcases Option.isSome_iff_exists.mp
      (driftLoopGo_isSome refTimeline clip sr
        (f2usize (30 * (sr : ℚ))) (f2usize (15 * (sr : ℚ)))
        (intToUsize (min (clip.timeline_offset_samples + (clip.length_samples : ℤ))
          ((refTimeline.length : ℕ) : ℤ)))
        (intToUsize (max clip.timeline_offset_samples 0)) clip.timeline_offset_samples
        hle hstride
        (intToUsize (min (clip.timeline_offset_samples + (clip.length_samples : ℤ))
          ((refTimeline.length : ℕ) : ℤ)) + 1)
        (intToUsize (max clip.timeline_offset_samples 0)) []
        (by omega)) with ⟨pts, hpts⟩
  split
  · split
    · rfl
    · rw [hpts]
      rfl
  · split
    · rfl
    · rw [hpts]
      rfl

/-- C9, witness: a clip with `end_samples = 0 ≥ 0` at 8 kHz returns a
pair. -/
theorem C9_amended_witness :
    (1 : ℕ) ≤ 8000 ∧ (0 : ℤ) ≤ (mkClip "d" "d" none 1 []).end_samples ∧
    (measure_drift [1, 2] (mkClip "d" "d" none 1 []) 8000).isSome :=
  ⟨by decide, by with_unfolding_all decide,
    C9_amended [1, 2] (mkClip "d" "d" none 1 []) 8000 (by decide)
      (by with_unfolding_all decide)⟩

theorem trackFrame_refl (t : Track) : TrackFrame t t :=
  ⟨Eq.refl _, Eq.refl _, Eq.refl _, List.Perm.refl _⟩

theorem trackFrame_trans {t0 t1 t2 : Track} (h1 : TrackFrame t0 t1)
    (h2 : TrackFrame t1 t2) : TrackFrame t0 t2 :=
  ⟨h2.1.trans h1.1, h2.2.1.trans h1.2.1, h2.2.2.1.trans h1.2.2.1,
    h2.2.2.2.trans h1.2.2.2⟩

theorem tracksFrame_refl (ts : List Track) : TracksFrame ts ts :=
  ⟨Eq.refl _, fun _ _ => trackFrame_refl _⟩

theorem tracksFrame_trans {ts0 ts1 ts2 : List Track}
    (h1 : TracksFrame ts0 ts1) (h2 : TracksFrame ts1 ts2) :
    TracksFrame ts0 ts2 := by
  refine ⟨h2.1.trans h1.1, fun i hi => ?_⟩
  exact trackFrame_trans (h1.2 i hi) (h2.2 i (h1.1 ▸ hi))

/-! ### Generic list lemmas -/

/-- Invariant preservation through a left fold. -/
theorem foldl_inv {α β : Type _} {P : β → Prop} (step : β → α → β) :
    ∀ (L : List α) (st : β), P st →
      (∀ s a, a ∈ L → P s → P (step s a)) → P (L.foldl step st) := by
  intro L
  induction L with
  | nil => intro st h0 _; exact h0
  | cons a L ih =>
    intro st h0 hstep
    exact ih (step st a) (hstep st a (List.mem_cons_self a L) h0)
      (fun s b hb => hstep s b (List.mem_cons_of_mem a hb))

/-- Characterization of a `max` fold over `ℤ`. -/
theorem foldl_max_spec : ∀ (l : List ℤ) (a : ℤ),
    a ≤ l.foldl max a ∧ (∀ x ∈ l, x ≤ l.foldl max a) ∧
      (l.foldl max a = a ∨ l.foldl max a ∈ l) := by
  intro l
  induction l with
  | nil => intro a; exact ⟨le_refl _, by simp, Or.inl rfl⟩
  | cons b l ih =>
    intro a
    simp only [List.foldl_cons]
    obtain ⟨h1, h2, h3⟩ := ih (max a b)
    refine ⟨le_trans (le_max_left a b) h1, ?_, ?_⟩
    · intro x hx
      rcases List.mem_cons.mp hx with rfl | h
      · exact le_trans (le_max_right a x) h1
      · exact h2 x h
    · rcases h3 with h | h
      · rcases max_choice a b with hm | hm
        · exact Or.inl (by rw [h, hm])
        · exact Or.inr (by rw [h, hm]; exact List.mem_cons_self b l)
      · exact Or.inr (List.mem_cons_of_mem b h)

/-- Characterization of a `min` fold over `ℤ`. -/
theorem foldl_min_spec : ∀ (l : List ℤ) (a : ℤ),
    l.foldl min a ≤ a ∧ (∀ x ∈ l, l.foldl min a ≤ x) ∧
      (l.foldl min a = a ∨ l.foldl min a ∈ l) := by
  intro l
  induction l with
  | nil => intro a; exact ⟨le_refl _, by simp, Or.inl rfl⟩
  | cons b l ih =>
    intro a
    simp only [List.foldl_cons]
    obtain ⟨h1, h2, h3⟩ := ih (min a b)
    refine ⟨le_trans h1 (min_le_left a b), ?_, ?_⟩
    · intro x hx
      rcases List.mem_cons.mp hx with rfl | h
      · exact le_trans h1 (min_le_right a x)
      · exact h2 x h
    · rcases h3 with h | h
      · rcases min_choice a b with hm | hm
        · exact Or.inl (by rw [h, hm])
        · exact Or.inr (by rw [h, hm]; exact List.mem_cons_self b l)
      · exact Or.inr (List.mem_cons_of_mem b h)

/-- Adding a constant shift to every element shifts a seeded `max` fold,
provided the shift is nonnegative and some element is nonnegative. -/
theorem foldl_max_map_add (l : List ℤ) (s : ℤ) (hs : 0 ≤ s)
    (hw : ∃ e ∈ l, 0 ≤ e) :
    (l.map (fun x => x + s)).foldl max 0 = l.foldl max 0 + s := by
  obtain ⟨h1, h2, h3⟩ := foldl_max_spec l 0
  obtain ⟨g1, g2, g3⟩ := foldl_max_spec (l.map (fun x => x + s)) 0
  obtain ⟨e, he, he0⟩ := hw
  apply le_antisymm
  · rcases g3 with h | h
    · rw [h]
      have : 0 ≤ l.foldl max 0 := h1
      omega
    · rcases List.mem_map.mp h with ⟨x, hx, hxe⟩
      have := h2 x hx
      omega
  · rcases h3 with h | h
    · rw [h]
      have : e + s ≤ (l.map (fun x => x + s)).foldl max 0 :=
        g2 _ (List.mem_map.mpr ⟨e, he, rfl⟩)
      omega
    · have : l.foldl max 0 + s ≤ (l.map (fun x => x + s)).foldl max 0 :=
        g2 _ (List.mem_map.mpr ⟨_, h, rfl⟩)
      omega

/-- `modifyIdx` commutes away under a map that absorbs the update. -/
theorem map_modifyIdx {α β : Type _} (f : α → α) (g : α → β)
    (habs : ∀ a, g (f a) = g a) :
    ∀ (i : ℕ) (l : List α), (modifyIdx f i l).map g = l.map g := by
  intro i l
  induction l generalizing i with
  | nil => cases i <;> rfl
  | cons a l ih =>
    cases i with
    | zero => simp [modifyIdx, habs]
    | succ n => simp [modifyIdx, ih n]

/-- `getD` through a `map`, in range. -/
theorem getD_map_of_lt {α β : Type _} (f : α → β) (l : List α) (i : ℕ)
    (d : α) (d' : β) (h : i < l.length) :
    (l.map f).getD i d' = f (l.getD i d) := by
  rw [List.getD_eq_getElem _ _ (by simpa using h), List.getD_eq_getElem _ _ h]
  simp

/-- `getTrackD` through a `map`, in range. -/
theorem getTrackD_map (f : Track → Track) (ts : List Track) (i : ℕ)
    (h : i < ts.length) : getTrackD (ts.map f) i = f (getTrackD ts i) :=
  getD_map_of_lt f ts i defaultTrack defaultTrack h

/-- Indices produced by `enumFrom` are bounded. -/
theorem enumFrom_fst_lt {α : Type _} :
    ∀ (l : List α) (k : ℕ) (p : ℕ × α), p ∈ l.enumFrom k → p.1 < k + l.length := by
  intro l
  induction l with
  | nil => intro k p h; simp [List.enumFrom] at h
  | cons a l ih =>
    intro k p h
    rcases List.mem_cons.mp h with h | h
    · rw [h]; simp
    · have := ih (k + 1) p h
      simp only [List.length_cons]
      omega

/-- Lists of length at most one are vacuously pairwise. -/
theorem pairwise_of_length_le_one {α : Type _} {R : α → α → Prop} :
    ∀ (l : List α), l.length ≤ 1 → l.Pairwise R := by
  intro l h
  cases l with
  | nil => exact List.Pairwise.nil
  | cons a l =>
    cases l with
    | nil => simp
    | cons b l => simp at h

/-- A consecutive non-overlap chain is pairwise non-overlap. -/
theorem chain'_nonOverlap_pairwise {l : List Clip}
    (h : l.Chain' clipNonOverlap) : l.Pairwise clipNonOverlap :=
  List.chain'_iff_pairwise.mp h

/-- Pairwise non-overlap transfers along equal skeleton lists. -/
theorem pairwise_of_skels_eq {l l' : List Clip}
    (h : l'.map skel = l.map skel) (hp : l.Pairwise clipNonOverlap) :
    l'.Pairwise clipNonOverlap := by
  have h1 : ∀ (m : List Clip), m.Pairwise clipNonOverlap ↔
      (m.map skel).Pairwise skelR := by
    intro m
    rw [List.pairwise_map]
    rfl
  rw [h1] at hp ⊢
  rw [h]
  exact hp

/-- Offset nonnegativity transfers along equal skeleton lists. -/
theorem nonneg_of_skels_eq {l l' : List Clip}
    (h : l'.map skel = l.map skel)
    (hp : ∀ c ∈ l, 0 ≤ c.timeline_offset_samples) :
    ∀ c ∈ l', 0 ≤ c.timeline_offset_samples := by
  intro c hc
  have h2 : skel c ∈ l'.map skel := List.mem_map.mpr ⟨c, hc, rfl⟩
  rw [h] at h2
  rcases List.mem_map.mp h2 with ⟨c0, hc0, hsk⟩
  have : c0.timeline_offset_samples = c.timeline_offset_samples :=
    congrArg Prod.fst hsk
  rw [← this]
  exact hp c0 hc0

/-! ### Facts about the reference builder and the overlap repair -/

theorem truncQ_nonneg {x : ℚ} (h : 0 ≤ x) : 0 ≤ truncQ x := by
  unfold truncQ
  rw [if_pos h]
  exact Int.floor_nonneg.mpr h

theorem gapSeconds_nonneg (prev cur : Clip) : 0 ≤ gapSeconds prev cur := by
  unfold gapSeconds
  rcases prev.creation_time with _ | pct <;> rcases cur.creation_time with _ | cct
  · norm_num
  · norm_num
  · norm_num
  · exact le_max_right _ _

theorem gapTrunc_nonneg (prev cur : Clip) (sr : ℕ) :
    0 ≤ truncQ (gapSeconds prev cur * (sr : ℚ)) :=
  truncQ_nonneg (mul_nonneg (gapSeconds_nonneg prev cur) (by positivity))

theorem placeSeq_map_frozen (sr : ℕ) :
    ∀ (prev : Clip) (l : List Clip),
      (placeSeq sr prev l).map frozenClip = l.map frozenClip := by
  intro prev l
  induction l generalizing prev with
  | nil => rfl
  | cons c rest ih =>
    simp only [placeSeq, List.map_cons]
    exact congrArg _ (ih (placeNext sr prev c))

theorem placeNext_nonOverlap (sr : ℕ) (prev c : Clip) :
    clipNonOverlap prev (placeNext sr prev c) := by
  unfold clipNonOverlap placeNext Clip.end_samples Clip.length_samples
  dsimp only
  have := gapTrunc_nonneg prev c sr
  omega

theorem placeSeq_chain (sr : ℕ) :
    ∀ (prev : Clip) (l : List Clip),
      (prev :: placeSeq sr prev l).Chain' clipNonOverlap := by
  intro prev l
  induction l generalizing prev with
  | nil => simp [placeSeq]
  | cons c rest ih =>
    simp only [placeSeq]
    exact List.chain'_cons.mpr ⟨placeNext_nonOverlap sr prev c, ih (placeNext sr prev c)⟩

theorem placeSeq_nonneg (sr : ℕ) :
    ∀ (prev : Clip) (l : List Clip), 0 ≤ prev.timeline_offset_samples →
      ∀ c ∈ placeSeq sr prev l, 0 ≤ c.timeline_offset_samples := by
  intro prev l
  induction l generalizing prev with
  | nil => intro _ c hc; simp [placeSeq] at hc
  | cons c0 rest ih =>
    intro hprev c hc
    have hnext : 0 ≤ (placeNext sr prev c0).timeline_offset_samples := by
      unfold placeNext
      dsimp only
      have := gapTrunc_nonneg prev c0 sr
      have : (0 : ℤ) ≤ (prev.length_samples : ℤ) := by positivity
      omega
    rcases List.mem_cons.mp hc with rfl | hc
    · exact hnext
    · exact ih (placeNext sr prev c0) hnext c hc

/-- Full specification of `build_reference_from_metadata` on success:
the track identity and frozen clip fields are untouched, and the new
layout is nonempty, pairwise non-overlapping, with nonnegative offsets
(the first clip sits at offset 0 and gaps are nonnegative). -/
theorem build_spec (track : Track) (sr : ℕ) (t' : Track) (buf : List ℚ)
    (h : build_reference_from_metadata track sr = some (t', buf)) :
    t'.name = track.name ∧ t'.is_reference = track.is_reference ∧
    t'.synced_audio = track.synced_audio ∧
    t'.synced_channels = track.synced_channels ∧
    t'.clips.map frozenClip = track.clips.map frozenClip ∧
    t'.clips ≠ [] ∧
    t'.clips.Pairwise clipNonOverlap ∧
    (∀ c ∈ t'.clips, 0 ≤ c.timeline_offset_samples) := by
  unfold build_reference_from_metadata at h
  cases hcl : track.clips with
  | nil => rw [hcl] at h; exact absurd h (by simp)
  | cons c0 rest =>
    rw [hcl] at h
    dsimp only at h
    by_cases hr : rest.isEmpty
    · rw [if_pos hr] at h
      have hrest : rest = [] := by
        cases rest
        · rfl
        · simp at hr
      simp only [Option.some.injEq, Prod.mk.injEq] at h
      obtain ⟨ht, _⟩ := h
      subst ht
      subst hrest
      refine ⟨rfl, rfl, rfl, rfl, by simp [hcl, frozenClip], by simp, by simp, ?_⟩
      intro c hc
      simp only [List.mem_singleton] at hc
      subst hc
      norm_num
    · rw [if_neg hr] at h
      simp only [Option.some.injEq, Prod.mk.injEq] at h
      obtain ⟨ht, _⟩ := h
      subst ht
      refine ⟨rfl, rfl, rfl, rfl, ?_, by simp, ?_, ?_⟩
      · simp only [hcl, List.map_cons]
        exact congrArg _ (placeSeq_map_frozen sr _ rest)
      · exact chain'_nonOverlap_pairwise (placeSeq_chain sr _ rest)
      · intro c hc
        rcases List.mem_cons.mp hc with rfl | hc
        · norm_num
        · exact placeSeq_nonneg sr _ rest (by norm_num) c hc

theorem hasOverlapB_eq_false_chain :
    ∀ (l : List Clip), hasOverlapB l = false → l.Chain' clipNonOverlap := by
  intro l
  match l with
  | [] => intro _; simp
  | [a] => intro _; simp
  | a :: b :: rest =>
    intro h
    unfold hasOverlapB at h
    rw [Bool.or_eq_false_iff] at h
    obtain ⟨h1, h2⟩ := h
    refine List.chain'_cons.mpr ⟨?_, hasOverlapB_eq_false_chain (b :: rest) h2⟩
    unfold clipNonOverlap
    simpa using of_decide_eq_false h1

theorem reseqNext_nonOverlap (sr : ℕ) (prev c : Clip) :
    clipNonOverlap prev (reseqNext sr prev c) := by
  unfold clipNonOverlap reseqNext Clip.end_samples Clip.length_samples
  dsimp only
  have := gapTrunc_nonneg prev c sr
  omega

theorem placeFwdSeq_chain (sr : ℕ) :
    ∀ (prev : Clip) (l : List Clip),
      (prev :: placeFwdSeq sr prev l).Chain' clipNonOverlap := by
  intro prev l
  induction l generalizing prev with
  | nil => simp [placeFwdSeq]
  | cons c rest ih =>
    simp only [placeFwdSeq]
    exact List.chain'_cons.mpr ⟨reseqNext_nonOverlap sr prev c, ih (reseqNext sr prev c)⟩

theorem placeFwdSeq_map_frozen (sr : ℕ) :
    ∀ (prev : Clip) (l : List Clip),
      (placeFwdSeq sr prev l).map frozenClip = l.map frozenClip := by
  intro prev l
  induction l generalizing prev with
  | nil => rfl
  | cons c rest ih =>
    simp only [placeFwdSeq, List.map_cons]
    exact congrArg _ (ih (reseqNext sr prev c))

theorem reseqPrev_nonOverlap (sr : ℕ) (next c : Clip) :
    clipNonOverlap (reseqPrev sr next c) next := by
  unfold clipNonOverlap reseqPrev Clip.end_samples Clip.length_samples
  dsimp only
  rcases c.creation_time with _ | cct <;> rcases next.creation_time with _ | nct
  all_goals
    first
    | (have h := truncQ_nonneg (x := 1 / 2 * (sr : ℚ)) (by positivity); dsimp only; omega)
    | (have h := truncQ_nonneg
        (x := max (nct - (cct + c.duration_s)) 0 * (sr : ℚ))
        (mul_nonneg (le_max_right _ _) (by positivity))
       dsimp only
       omega)

theorem placeBwdRev_map_frozen (sr : ℕ) :
    ∀ (next : Clip) (l : List Clip),
      (placeBwdRev sr next l).map frozenClip = l.map frozenClip := by
  intro next l
  induction l generalizing next with
  | nil => rfl
  | cons c rest ih =>
    simp only [placeBwdRev, List.map_cons]
    exact congrArg _ (ih (reseqPrev sr next c))

theorem placeBwdRev_chain (sr : ℕ) :
    ∀ (next : Clip) (l : List Clip),
      ((placeBwdRev sr next l).reverse ++ [next]).Chain' clipNonOverlap := by
  intro next l
  induction l generalizing next with
  | nil => simp [placeBwdRev]
  | cons c rest ih =>
    simp only [placeBwdRev, List.reverse_cons, List.append_assoc, List.singleton_append]
    have hih := ih (reseqPrev sr next c)
    rw [List.chain'_append] at hih ⊢
    obtain ⟨ha, _, hc⟩ := hih
    refine ⟨ha, ?_, ?_⟩
    · exact List.chain'_cons'.mpr ⟨by
        intro y hy
        simp at hy
        subst hy
        exact reseqPrev_nonOverlap sr next c, by simp⟩
    · intro x hx y hy
      simp only [List.head?_cons, Option.mem_def, Option.some.injEq] at hy
      subst hy
      exact hc x hx (reseqPrev sr next c) (by simp)

/-- Splicing two chains at a shared element. -/
theorem chain'_append_cons (l1 : List Clip) (a : Clip) (l2 : List Clip)
    (h1 : (l1 ++ [a]).Chain' clipNonOverlap)
    (h2 : (a :: l2).Chain' clipNonOverlap) :
    (l1 ++ a :: l2).Chain' clipNonOverlap := by
  have heq : l1 ++ a :: l2 = (l1 ++ [a]) ++ l2 := by simp
  rw [heq, List.chain'_append]
  refine ⟨h1, (List.chain'_cons'.mp h2).2, ?_⟩
  intro x hx y hy
  rw [List.getLast?_concat] at hx
  simp only [Option.mem_def, Option.some.injEq] at hx
  subst hx
  exact (List.chain'_cons'.mp h2).1 y hy

set_option maxHeartbeats 1000000 in
/-- Full specification of `fix_intra_track_overlaps`: the resulting
track keeps its identity, its clips are a frozen-field-preserving
permutation of the input clips, and they are pairwise
non-overlapping. -/
theorem fix_spec (sr : ℕ) (track : Track) (offs : List (String × ℤ))
    (warns : List String) :
    (fix_intra_track_overlaps sr track offs warns).1.name = track.name ∧
    (fix_intra_track_overlaps sr track offs warns).1.is_reference = track.is_reference ∧
    (fix_intra_track_overlaps sr track offs warns).1.synced_audio = track.synced_audio ∧
    (fix_intra_track_overlaps sr track offs warns).1.synced_channels = track.synced_channels ∧
    ((fix_intra_track_overlaps sr track offs warns).1.clips.map frozenClip).Perm
      (track.clips.map frozenClip) ∧
    (fix_intra_track_overlaps sr track offs warns).1.clips.Pairwise clipNonOverlap := by
  unfold fix_intra_track_overlaps
  by_cases hlen : track.clips.length < 2
  · rw [if_pos hlen]
    exact ⟨rfl, rfl, rfl, rfl, List.Perm.refl _,
      pairwise_of_length_le_one _ (by dsimp only; omega)⟩
  · rw [if_neg hlen]
    have hsorted : (sort_clips_by_time track).clips = track.clips.mergeSort clipLe := rfl
    have hperm : ((sort_clips_by_time track).clips.map frozenClip).Perm
        (track.clips.map frozenClip) := by
      rw [hsorted]
      exact (List.mergeSort_perm track.clips clipLe).map frozenClip
    have hL : (sort_clips_by_time track).clips.length = track.clips.length := by
      rw [hsorted]
      exact List.length_mergeSort track.clips
    by_cases hov : ¬ (hasOverlapB (sort_clips_by_time track).clips = true)
    · rw [if_pos hov]
      exact ⟨rfl, rfl, rfl, rfl, hperm,
        chain'_nonOverlap_pairwise (hasOverlapB_eq_false_chain _
          (Bool.not_eq_true _ ▸ hov))⟩
    · rw [if_neg hov]
      dsimp only
      have hne : (sort_clips_by_time track).clips ≠ [] := by
        intro h
        rw [h] at hL
        simp at hL
        omega
      have hk : anchorIdxOf (sort_clips_by_time track).clips
          < (sort_clips_by_time track).clips.length := by
        have hspec := maxIdxByKeyLast_spec (fun c => c.confidence) defaultClip
          (sort_clips_by_time track).clips hne
        exact hspec.1
      refine ⟨rfl, rfl, rfl, rfl, ?_, ?_⟩
      · -- permutation of frozen fields
        apply List.Perm.trans _ hperm
        apply List.Perm.of_eq
        set L := (sort_clips_by_time track).clips with hLdef
        set k := anchorIdxOf L with hkdef
        have hgetD : L.getD k defaultClip = L.get ⟨k, hk⟩ := by
          rw [List.getD_eq_getElem L defaultClip hk]
          simp
        have hdecomp : L = L.take k ++ L.get ⟨k, hk⟩ :: L.drop (k + 1) := by
          conv_lhs => rw [← List.take_append_drop k L]
          congr 1
          rw [List.drop_eq_getElem_cons hk]
          simp
        simp only [List.map_append, List.map_cons, List.map_reverse]
        rw [placeBwdRev_map_frozen, placeFwdSeq_map_frozen, List.map_reverse,
          List.reverse_reverse]
        conv_rhs => rw [hdecomp]
        simp only [List.map_append, List.map_cons]
        rw [hgetD]
      · -- pairwise non-overlap of the re-sequenced clips
        apply chain'_nonOverlap_pairwise
        apply chain'_append_cons
        · exact placeBwdRev_chain sr _ _
        · exact placeFwdSeq_chain sr _ _

/-- The winning index of the strictly-greater accumulation loop is in
range. -/
theorem argmaxGtQ_fst_lt (vals : List ℚ) (h : vals ≠ []) :
    (argmaxGtQ vals).1 < vals.length := by
  unfold argmaxGtQ
  apply @foldl_inv _ _ (fun acc : ℕ × ℚ => acc.1 < vals.length)
  · cases vals
    · exact absurd rfl h
    · simp
  · intro s a ha hs
    dsimp only
    split
    · have := enumFrom_fst_lt vals 0 a ha
      omega
    · exact hs

/-- The selected reference index is always in range for a nonempty
track list. -/
theorem select_reference_index_lt (tracks : List Track) (h : tracks ≠ []) :
    select_reference_index tracks < tracks.length := by
  unfold select_reference_index
  cases hf : tracks.findIdx? (fun t => t.is_reference) with
  | some i =>
    obtain ⟨hlt, -⟩ := List.findIdx?_eq_some_iff_getElem.mp hf
    exact hlt
  | none =>
    dsimp only
    have h1 : tracks.map get_coverage_span ≠ [] := by
      cases tracks
      · exact absurd rfl h
      · simp
    have h2 : tracks.map Track.total_duration_s ≠ [] := by
      cases tracks
      · exact absurd rfl h
      · simp
    split
    · have := argmaxGtQ_fst_lt _ h2
      simpa using this
    · have := argmaxGtQ_fst_lt _ h1
      simpa using this

/-! ### Index-update and frame lemmas for the pipeline state -/

theorem length_setIdx {α : Type _} (l : List α) (i : ℕ) (a : α) :
    (setIdx l i a).length = l.length :=
  length_modifyIdx _ i l

theorem getD_setIdx_self {α : Type _} (l : List α) (i : ℕ) (a d : α)
    (h : i < l.length) : (setIdx l i a).getD i d = a := by
  unfold setIdx
  rw [getD_modifyIdx_self _ d i l h]

theorem getD_setIdx_ne {α : Type _} (l : List α) (i j : ℕ) (a d : α)
    (h : i ≠ j) : (setIdx l i a).getD j d = l.getD j d :=
  getD_modifyIdx_ne _ d i j l h

theorem mem_setIdx {α : Type _} {a t : α} :
    ∀ (l : List α) (i : ℕ), t ∈ setIdx l i a → t = a ∨ t ∈ l := by
  intro l
  induction l with
  | nil => intro i h; cases i <;> simp [setIdx, modifyIdx] at h
  | cons b l ih =>
    intro i h
    cases i with
    | zero =>
      rcases List.mem_cons.mp h with h | h
      · exact Or.inl h
      · exact Or.inr (List.mem_cons_of_mem b h)
    | succ n =>
      rcases List.mem_cons.mp h with h | h
      · exact Or.inr (h ▸ List.mem_cons_self b l)
      · rcases ih n h with h | h
        · exact Or.inl h
        · exact Or.inr (List.mem_cons_of_mem b h)

/-- Membership-based and index-based track quantification agree. -/
theorem forall_mem_iff_getD {P : Track → Prop} (ts : List Track) :
    (∀ t ∈ ts, P t) ↔ (∀ i, i < ts.length → P (getTrackD ts i)) := by
  constructor
  · intro h i hi
    exact h _ (by
      unfold getTrackD
      rw [List.getD_eq_getElem ts defaultTrack hi]
      exact List.getElem_mem hi)
  · intro h t ht
    rcases List.mem_iff_getElem.mp ht with ⟨i, hi, hget⟩
    have := h i hi
    unfold getTrackD at this
    rw [List.getD_eq_getElem ts defaultTrack hi] at this
    rwa [hget] at this

theorem length_modifyClip (ts : List Track) (tc : ℕ × ℕ) (f : Clip → Clip) :
    (modifyClip ts tc f).length = ts.length :=
  length_modifyIdx _ tc.1 ts

theorem getTrackD_modifyClip_ne (ts : List Track) (tc : ℕ × ℕ)
    (f : Clip → Clip) (i : ℕ) (h : tc.1 ≠ i) :
    getTrackD (modifyClip ts tc f) i = getTrackD ts i :=
  getD_modifyIdx_ne _ defaultTrack tc.1 i ts h

/-- `modifyClip` with a frozen-field-preserving update is a frame
no-op. -/
theorem tracksFrame_modifyClip (ts : List Track) (tc : ℕ × ℕ)
    (f : Clip → Clip) (hf : ∀ c, frozenClip (f c) = frozenClip c) :
    TracksFrame ts (modifyClip ts tc f) := by
  refine ⟨length_modifyClip ts tc f, fun i hi => ?_⟩
  by_cases h : tc.1 = i
  · subst h
    rw [getTrackD_modifyClip_self ts tc f hi]
    exact ⟨rfl, rfl, rfl, List.Perm.of_eq (map_modifyIdx f frozenClip hf tc.2 _)⟩
  · rw [getTrackD_modifyClip_ne ts tc f i h]
    exact trackFrame_refl _

/-- `modifyClip` with a skeleton-preserving update keeps all track
skeletons. -/
theorem trackSkels_modifyClip (ts : List Track) (tc : ℕ × ℕ)
    (f : Clip → Clip) (hf : ∀ c, skel (f c) = skel c) :
    trackSkels (modifyClip ts tc f) = trackSkels ts := by
  unfold trackSkels modifyClip
  apply map_modifyIdx
  intro t
  exact map_modifyIdx f skel hf tc.2 t.clips

/-- Replacing one track with a skeleton-equal one keeps all track
skeletons. -/
theorem trackSkels_setIdx (t' : Track) :
    ∀ (ts : List Track) (i : ℕ),
      t'.clips.map skel = (getTrackD ts i).clips.map skel →
      trackSkels (setIdx ts i t') = trackSkels ts := by
  intro ts
  induction ts with
  | nil => intro i _; cases i <;> rfl
  | cons a ts ih =>
    intro i h
    cases i with
    | zero =>
      have : getTrackD (a :: ts) 0 = a := rfl
      rw [this] at h
      simp only [setIdx, modifyIdx, trackSkels, List.map_cons]
      rw [h]
    | succ n =>
      have : getTrackD (a :: ts) (n + 1) = getTrackD ts n := rfl
      rw [this] at h
      simp only [setIdx, modifyIdx, trackSkels, List.map_cons]
      have := ih n h
      unfold trackSkels setIdx at this
      rw [this]

/-- Replacing one track with a frame-related one is a frame no-op. -/
theorem tracksFrame_setIdx (ts : List Track) (i : ℕ) (t' : Track)
    (h : TrackFrame (getTrackD ts i) t') :
    TracksFrame ts (setIdx ts i t') := by
  refine ⟨length_setIdx ts i t', fun j hj => ?_⟩
  by_cases hij : i = j
  · subst hij
    unfold getTrackD
    rw [getD_setIdx_self ts i t' defaultTrack hj]
    exact h
  · unfold getTrackD
    rw [getD_setIdx_ne ts i j t' defaultTrack hij]
    exact trackFrame_refl _

/-- Chaining frames through a fold. -/
theorem foldl_tracksFrame {β : Type _} (step : EngineState → β → EngineState)
    (L : List β) (st0 : EngineState)
    (h : ∀ s a, a ∈ L → TracksFrame s.tracks (step s a).tracks) :
    TracksFrame st0.tracks (L.foldl step st0).tracks :=
  @foldl_inv β EngineState (fun s => TracksFrame st0.tracks s.tracks) step L st0
    (tracksFrame_refl _) (fun s a ha hs => tracksFrame_trans hs (h s a ha))

/-- The track lengths determined by the skeletons. -/
theorem length_eq_of_trackSkels_eq {ts0 ts' : List Track}
    (h : trackSkels ts' = trackSkels ts0) : ts'.length = ts0.length := by
  have := congrArg List.length h
  simpa [trackSkels] using this

/-- Per-track clip skeletons from a global skeleton equality. -/
theorem clips_skels_of_trackSkels_eq {ts0 ts' : List Track}
    (h : trackSkels ts' = trackSkels ts0) (i : ℕ) (hi : i < ts0.length) :
    (getTrackD ts' i).clips.map skel = (getTrackD ts0 i).clips.map skel := by
  have hl := length_eq_of_trackSkels_eq h
  have h1 : (trackSkels ts').getD i [] = (getTrackD ts' i).clips.map skel :=
    getD_map_of_lt _ ts' i defaultTrack [] (by omega)
  have h2 : (trackSkels ts0).getD i [] = (getTrackD ts0 i).clips.map skel :=
    getD_map_of_lt _ ts0 i defaultTrack [] hi
  rw [← h1, ← h2, h]

/-- Pairwise non-overlap for all tracks transfers along equal track
skeletons. -/
theorem pairwise_all_of_trackSkels_eq {ts0 ts' : List Track}
    (h : trackSkels ts' = trackSkels ts0)
    (h0 : ∀ t ∈ ts0, t.clips.Pairwise clipNonOverlap) :
    ∀ t ∈ ts', t.clips.Pairwise clipNonOverlap := by
  rw [forall_mem_iff_getD] at h0 ⊢
  intro i hi
  have hl := length_eq_of_trackSkels_eq h
  exact pairwise_of_skels_eq (clips_skels_of_trackSkels_eq h i (by omega))
    (h0 i (by omega))

/-- Offset nonnegativity for all tracks transfers along equal track
skeletons. -/
theorem nonneg_all_of_trackSkels_eq {ts0 ts' : List Track}
    (h : trackSkels ts' = trackSkels ts0)
    (h0 : ∀ t ∈ ts0, ∀ c ∈ t.clips, 0 ≤ c.timeline_offset_samples) :
    ∀ t ∈ ts', ∀ c ∈ t.clips, 0 ≤ c.timeline_offset_samples := by
  rw [forall_mem_iff_getD] at h0 ⊢
  intro i hi
  have hl := length_eq_of_trackSkels_eq h
  exact nonneg_of_skels_eq (clips_skels_of_trackSkels_eq h i (by omega))
    (h0 i (by omega))

/-! ### Invariants of the per-clip passes (phases 4–6.5) -/

/-- The pairs visited by the per-clip loops never point at the reference
track and are in range. -/
theorem nonRefPairs_mem (ts : List Track) (refIdx : ℕ) :
    ∀ tc ∈ nonRefPairs ts refIdx, tc.1 ≠ refIdx ∧ tc.1 < ts.length := by
  intro tc htc
  unfold nonRefPairs at htc
  rcases List.mem_bind.mp htc with ⟨ti, hti, hmem⟩
  by_cases h : ti = refIdx
  · rw [if_pos h] at hmem
    simp at hmem
  · rw [if_neg h] at hmem
    rcases List.mem_map.mp hmem with ⟨ci, _, hci⟩
    rw [← hci]
    exact ⟨h, List.mem_range.mp hti⟩

/-- Shape of one pass-1 step: a frozen-field-preserving clip update at
the visited pair, with the pair possibly appended to `unplaced`. -/
theorem pass1Step_spec (refAudio : List ℚ) (sr : ℕ) (maxOff : Option ℚ)
    (st : EngineState) (tc : ℕ × ℕ) :
    (∃ f : Clip → Clip,
      (pass1Step refAudio sr maxOff st tc).tracks = modifyClip st.tracks tc f ∧
      ∀ c, frozenClip (f c) = frozenClip c) ∧
    ((pass1Step refAudio sr maxOff st tc).unplaced = st.unplaced ∨
      (pass1Step refAudio sr maxOff st tc).unplaced = st.unplaced ++ [tc]) := by
  unfold pass1Step
  dsimp only
  split
  · exact ⟨⟨_, rfl, fun c => rfl⟩, Or.inl rfl⟩
  · exact ⟨⟨_, rfl, fun c => rfl⟩, Or.inr rfl⟩

/-- Pass 1 preserves the track count and the reference track, keeps all
frozen fields, and only queues non-reference pairs as unplaced. -/
theorem pass1_inv (refAudio : List ℚ) (sr : ℕ) (maxOff : Option ℚ)
    (refIdx : ℕ) (st0 : EngineState)
    (h0 : ∀ tc ∈ st0.unplaced, tc.1 ≠ refIdx) :
    (pass1 refAudio sr maxOff refIdx st0).tracks.length = st0.tracks.length ∧
    getTrackD (pass1 refAudio sr maxOff refIdx st0).tracks refIdx
      = getTrackD st0.tracks refIdx ∧
    (∀ tc ∈ (pass1 refAudio sr maxOff refIdx st0).unplaced, tc.1 ≠ refIdx) ∧
    TracksFrame st0.tracks (pass1 refAudio sr maxOff refIdx st0).tracks := by
  unfold pass1
  refine @foldl_inv (ℕ × ℕ) EngineState
    (fun s => s.tracks.length = st0.tracks.length ∧
      getTrackD s.tracks refIdx = getTrackD st0.tracks refIdx ∧
      (∀ tc ∈ s.unplaced, tc.1 ≠ refIdx) ∧ TracksFrame st0.tracks s.tracks)
    (pass1Step refAudio sr maxOff) (nonRefPairs st0.tracks refIdx) st0
    ⟨rfl, rfl, h0, tracksFrame_refl _⟩ ?_
  intro s a ha hs
  obtain ⟨h1, h2, h3, h4⟩ := hs
  obtain ⟨⟨f, hft, hf⟩, hun⟩ := pass1Step_spec refAudio sr maxOff s a
  have hane := (nonRefPairs_mem st0.tracks refIdx a ha).1
  refine ⟨?_, ?_, ?_, ?_⟩
  · rw [hft, length_modifyClip]
    exact h1
  · rw [hft, getTrackD_modifyClip_ne s.tracks a f refIdx hane]
    exact h2
  · intro tc htc
    rcases hun with h | h
    · rw [h] at htc
      exact h3 tc htc
    · rw [h] at htc
      rcases List.mem_append.mp htc with h' | h'
      · exact h3 tc h'
      · rw [List.mem_singleton.mp h']
        exact hane
  · rw [hft]
    exact tracksFrame_trans h4 (tracksFrame_modifyClip s.tracks a f hf)

/-- Shape of the pass-2 acceptance body: either a no-op on the tracks or
a frozen-field-preserving update at the visited pair; `unplaced` is never
touched. -/
theorem pass2Apply_spec (st : EngineState) (tc : ℕ × ℕ) (delay : ℤ)
    (conf : ℚ) (sr : ℕ) :
    ((pass2Apply st tc delay conf sr).tracks = st.tracks ∨
      ∃ f : Clip → Clip,
        (pass2Apply st tc delay conf sr).tracks = modifyClip st.tracks tc f ∧
        ∀ c, frozenClip (f c) = frozenClip c) ∧
    (pass2Apply st tc delay conf sr).unplaced = st.unplaced := by
  unfold pass2Apply
  dsimp only
  split
  · exact ⟨Or.inr ⟨_, rfl, fun c => rfl⟩, rfl⟩
  · exact ⟨Or.inl rfl, rfl⟩

/-- Pass 2 preserves the track count, the reference track (given that
only non-reference pairs are unplaced), the unplaced queue itself, and
all frozen fields. -/
theorem pass2_inv (refAudio : List ℚ) (sr : ℕ) (maxOff : Option ℚ)
    (refIdx : ℕ) (st : EngineState)
    (h0 : ∀ tc ∈ st.unplaced, tc.1 ≠ refIdx) :
    (pass2 refAudio sr maxOff st).tracks.length = st.tracks.length ∧
    getTrackD (pass2 refAudio sr maxOff st).tracks refIdx
      = getTrackD st.tracks refIdx ∧
    (pass2 refAudio sr maxOff st).unplaced = st.unplaced ∧
    TracksFrame st.tracks (pass2 refAudio sr maxOff st).tracks := by
  unfold pass2
  split
  · exact ⟨rfl, rfl, rfl, tracksFrame_refl _⟩
  · refine @foldl_inv (ℕ × ℕ) EngineState
      (fun s => s.tracks.length = st.tracks.length ∧
        getTrackD s.tracks refIdx = getTrackD st.tracks refIdx ∧
        s.unplaced = st.unplaced ∧ TracksFrame st.tracks s.tracks)
      _ st.unplaced st ⟨rfl, rfl, rfl, tracksFrame_refl _⟩ ?_
    intro s a ha hs
    obtain ⟨h1, h2, h3, h4⟩ := hs
    unfold pass2Step
    dsimp only
    obtain ⟨hcase, hun⟩ := pass2Apply_spec s a
      (compute_delay (stitch_enhanced_timeline refAudio st.tracks st.placed sr)
        (getClipD s.tracks a).samples sr maxOff).1
      (compute_delay (stitch_enhanced_timeline refAudio st.tracks st.placed sr)
        (getClipD s.tracks a).samples sr maxOff).2 sr
    have hane := h0 a ha
    rcases hcase with ht | ⟨f, ht, hf⟩
    · exact ⟨by rw [ht]; exact h1, by rw [ht]; exact h2, hun.trans h3,
        by rw [ht]; exact h4⟩
    · refine ⟨?_, ?_, hun.trans h3, ?_⟩
      · rw [ht, length_modifyClip]
        exact h1
      · rw [ht, getTrackD_modifyClip_ne s.tracks a f refIdx hane]
        exact h2
      · rw [ht]
        exact tracksFrame_trans h4 (tracksFrame_modifyClip s.tracks a f hf)

/-- Shape of one metadata-fallback step: either a no-op on the tracks or
a frozen-field-preserving update at the visited pair; `unplaced` is never
touched. -/
theorem fallbackStep_spec (sr : ℕ) (origin : Option ℚ) (st : EngineState)
    (tc : ℕ × ℕ) :
    ((fallbackStep sr origin st tc).tracks = st.tracks ∨
      ∃ f : Clip → Clip,
        (fallbackStep sr origin st tc).tracks = modifyClip st.tracks tc f ∧
        ∀ c, frozenClip (f c) = frozenClip c) ∧
    (fallbackStep sr origin st tc).unplaced = st.unplaced := by
  unfold fallbackStep
  dsimp only
  split
  · split
    · split
      · exact ⟨Or.inr ⟨_, rfl, fun c => rfl⟩, rfl⟩
      · exact ⟨Or.inl rfl, rfl⟩
    · exact ⟨Or.inl rfl, rfl⟩
  · exact ⟨Or.inl rfl, rfl⟩

/-- The metadata-fallback fold preserves the track count, the reference
track, and all frozen fields. -/
theorem fallback_inv (sr : ℕ) (origin : Option ℚ) (refIdx : ℕ)
    (st : EngineState) (h0 : ∀ tc ∈ st.unplaced, tc.1 ≠ refIdx) :
    (st.unplaced.foldl (fallbackStep sr origin) st).tracks.length
      = st.tracks.length ∧
    getTrackD (st.unplaced.foldl (fallbackStep sr origin) st).tracks refIdx
      = getTrackD st.tracks refIdx ∧
    TracksFrame st.tracks (st.unplaced.foldl (fallbackStep sr origin) st).tracks := by
  refine @foldl_inv (ℕ × ℕ) EngineState
    (fun s => s.tracks.length = st.tracks.length ∧
      getTrackD s.tracks refIdx = getTrackD st.tracks refIdx ∧
      TracksFrame st.tracks s.tracks)
    (fallbackStep sr origin) st.unplaced st ⟨rfl, rfl, tracksFrame_refl _⟩ ?_
  intro s a ha hs
  obtain ⟨h1, h2, h3⟩ := hs
  obtain ⟨hcase, _⟩ := fallbackStep_spec sr origin s a
  have hane := h0 a ha
  rcases hcase with ht | ⟨f, ht, hf⟩
  · exact ⟨ht ▸ h1, ht ▸ h2, ht ▸ h3⟩
  · refine ⟨?_, ?_, ?_⟩
    · rw [ht, length_modifyClip]
      exact h1
    · rw [ht, getTrackD_modifyClip_ne s.tracks a f refIdx hane]
      exact h2
    · rw [ht]
      exact tracksFrame_trans h3 (tracksFrame_modifyClip s.tracks a f hf)

/-- Shape of one phase-6.5 step. -/
theorem fixStep_spec (sr refIdx : ℕ) (st : EngineState) (ti : ℕ) :
    (fixStep sr refIdx st ti).unplaced = st.unplaced ∧
    ((ti = refIdx ∧ (fixStep sr refIdx st ti).tracks = st.tracks) ∨
     (ti ≠ refIdx ∧ (fixStep sr refIdx st ti).tracks
        = setIdx st.tracks ti
            (fix_intra_track_overlaps sr (getTrackD st.tracks ti)
              st.clip_offsets st.warnings).1)) := by
  unfold fixStep
  dsimp only
  split
  · exact ⟨rfl, Or.inl ⟨by assumption, rfl⟩⟩
  · exact ⟨rfl, Or.inr ⟨by assumption, rfl⟩⟩

/-- Phase 6.5 preserves the track count, the reference track, the
unplaced queue, and all frozen fields. -/
theorem fixPhase_inv (sr refIdx : ℕ) (st : EngineState) :
    (fixPhase sr refIdx st).tracks.length = st.tracks.length ∧
    getTrackD (fixPhase sr refIdx st).tracks refIdx
      = getTrackD st.tracks refIdx ∧
    TracksFrame st.tracks (fixPhase sr refIdx st).tracks := by
  unfold fixPhase
  refine @foldl_inv ℕ EngineState
    (fun s => s.tracks.length = st.tracks.length ∧
      getTrackD s.tracks refIdx = getTrackD st.tracks refIdx ∧
      TracksFrame st.tracks s.tracks)
    (fixStep sr refIdx) (List.range st.tracks.length) st
    ⟨rfl, rfl, tracksFrame_refl _⟩ ?_
  intro s a _ hs
  obtain ⟨h1, h2, h3⟩ := hs
  obtain ⟨_, hcase⟩ := fixStep_spec sr refIdx s a
  rcases hcase with ⟨_, ht⟩ | ⟨hne, ht⟩
  · exact ⟨ht ▸ h1, ht ▸ h2, ht ▸ h3⟩
  · have hfx := fix_spec sr (getTrackD s.tracks a) s.clip_offsets s.warnings
    refine ⟨?_, ?_, ?_⟩
    · rw [ht, length_setIdx]
      exact h1
    · rw [ht]
      unfold getTrackD
      rw [getD_setIdx_ne _ _ _ _ _ hne]
      exact h2
    · rw [ht]
      exact tracksFrame_trans h3 (tracksFrame_setIdx s.tracks a _
        ⟨hfx.1, hfx.2.2.1, hfx.2.2.2.1, hfx.2.2.2.2.1⟩)

/-- After folding phase 6.5 over any index list, every non-reference
track that was not already repaired and outside the list is repaired:
all visited non-reference tracks end up pairwise non-overlapping. -/
theorem fixFold_pairwise (sr refIdx : ℕ) :
    ∀ (L : List ℕ) (st : EngineState),
      (∀ ti, ti ∉ L → ti ≠ refIdx →
        (getTrackD st.tracks ti).clips.Pairwise clipNonOverlap) →
      ∀ ti, ti ≠ refIdx →
        (getTrackD (L.foldl (fixStep sr refIdx) st).tracks ti).clips.Pairwise
          clipNonOverlap := by
  intro L
  induction L with
  | nil =>
    intro st h ti hne
    exact h ti (by simp) hne
  | cons a L ih =>
    intro st h ti hne
    simp only [List.foldl_cons]
    apply ih (fixStep sr refIdx st a) _ ti hne
    intro tj hj hjne
    obtain ⟨_, hcase⟩ := fixStep_spec sr refIdx st a
    rcases hcase with ⟨ha, ht⟩ | ⟨ha, ht⟩
    · rw [ht]
      apply h tj _ hjne
      intro hmem
      rcases List.mem_cons.mp hmem with rfl | hmem
      · exact hjne ha
      · exact hj hmem
    · by_cases htj : tj = a
      · subst htj
        rw [ht]
        by_cases hlt : tj < st.tracks.length
        · unfold getTrackD
          rw [getD_setIdx_self _ _ _ _ hlt]
          exact (fix_spec sr (getTrackD st.tracks tj) st.clip_offsets
            st.warnings).2.2.2.2.2
        · unfold getTrackD
          rw [List.getD_eq_default]
          · exact List.Pairwise.nil
          · rw [length_setIdx]
            omega
      · rw [ht]
        unfold getTrackD
        rw [getD_setIdx_ne _ _ _ _ _ (fun hh => htj hh.symm)]
        apply h tj _ hjne
        intro hmem
        rcases List.mem_cons.mp hmem with h' | h'
        · exact htj h'
        · exact hj h'

/-- After phase 6.5 every track is pairwise non-overlapping, provided
the reference track already is (it was laid out by the builder). -/
theorem fixPhase_pairwise (sr refIdx : ℕ) (st : EngineState)
    (href : (getTrackD st.tracks refIdx).clips.Pairwise clipNonOverlap) :
    ∀ t ∈ (fixPhase sr refIdx st).tracks, t.clips.Pairwise clipNonOverlap := by
  rw [forall_mem_iff_getD]
  intro i _
  by_cases hne : i = refIdx
  · subst hne
    rw [(fixPhase_inv sr i st).2.1]
    exact href
  · unfold fixPhase
    apply fixFold_pairwise sr refIdx (List.range st.tracks.length) st _ i hne
    intro ti hti _
    have hge : st.tracks.length ≤ ti := by
      by_contra hlt
      exact hti (List.mem_range.mpr (by omega))
    unfold getTrackD
    rw [List.getD_eq_default _ _ hge]
    exact List.Pairwise.nil

/-! ### Normalization, drift detection and drift inheritance -/

theorem mem_offsList {ts : List Track} {t : Track} {c : Clip}
    (ht : t ∈ ts) (hc : c ∈ t.clips) :
    c.timeline_offset_samples ∈ offsList ts :=
  List.mem_bind.mpr ⟨t, ht, List.mem_map.mpr ⟨c, hc, rfl⟩⟩

theorem mem_endsList {ts : List Track} {t : Track} {c : Clip}
    (ht : t ∈ ts) (hc : c ∈ t.clips) :
    c.end_samples ∈ endsList ts :=
  List.mem_bind.mpr ⟨t, ht, List.mem_map.mpr ⟨c, hc, rfl⟩⟩

theorem endsList_cons (t : Track) (ts : List Track) :
    endsList (t :: ts) = t.clips.map Clip.end_samples ++ endsList ts := rfl

/-- Shifting every clip shifts every end. -/
theorem endsList_shift (sr : ℕ) (s : ℤ) :
    ∀ (ts : List Track),
      endsList (ts.map (fun t =>
          { t with clips := t.clips.map (shiftClip sr s) }))
        = (endsList ts).map (fun x => x + s) := by
  intro ts
  induction ts with
  | nil => rfl
  | cons t ts ih =>
    rw [List.map_cons, endsList_cons, endsList_cons, List.map_append, ih]
    congr 1
    dsimp only
    rw [List.map_map, List.map_map]
    apply List.map_congr_left
    intro c _
    show Clip.end_samples (shiftClip sr s c) = c.end_samples + s
    unfold Clip.end_samples shiftClip
    dsimp only
    omega

/-- Full specification of the normalization phase: track count, frozen
fields and the pairwise layout are preserved, all offsets become
nonnegative, and — whenever some clip end is nonnegative — the stored
`max_end` equals the maximal clip end of the normalized tracks. -/
theorem normalizePhase_spec (sr : ℕ) (st : EngineState) :
    (normalizePhase sr st).1.tracks.length = st.tracks.length ∧
    TracksFrame st.tracks (normalizePhase sr st).1.tracks ∧
    (∀ t ∈ (normalizePhase sr st).1.tracks, ∀ c ∈ t.clips,
      0 ≤ c.timeline_offset_samples) ∧
    ((∀ t ∈ st.tracks, t.clips.Pairwise clipNonOverlap) →
      ∀ t ∈ (normalizePhase sr st).1.tracks, t.clips.Pairwise clipNonOverlap) ∧
    ((∃ e ∈ endsList st.tracks, 0 ≤ e) →
      (normalizePhase sr st).2 = maxEndTracks (normalizePhase sr st).1.tracks) := by
  obtain ⟨hm1, hm2, _⟩ := foldl_min_spec (offsList st.tracks) 0
  unfold normalizePhase
  dsimp only
  split
  · rename_i hmin
    refine ⟨by simp, ?_, ?_, ?_, ?_⟩
    · refine ⟨by simp, fun i hi => ?_⟩
      rw [getTrackD_map _ _ _ hi]
      refine ⟨rfl, rfl, rfl, List.Perm.of_eq ?_⟩
      dsimp only
      rw [List.map_map]
      exact List.map_congr_left (fun c _ => rfl)
    · intro t ht c hc
      rcases List.mem_map.mp ht with ⟨t0, ht0, rfl⟩
      dsimp only at hc
      rcases List.mem_map.mp hc with ⟨c0, hc0, rfl⟩
      have hb := hm2 _ (mem_offsList ht0 hc0)
      unfold shiftClip
      dsimp only
      omega
    · intro hall t ht
      rcases List.mem_map.mp ht with ⟨t0, ht0, rfl⟩
      dsimp only
      refine List.Pairwise.map _ ?_ (hall t0 ht0)
      intro a b hab
      unfold clipNonOverlap Clip.end_samples shiftClip at *
      dsimp only at *
      omega
    · intro hw
      unfold maxEndTracks
      dsimp only
      rw [endsList_shift, foldl_max_map_add _ _ (by omega) hw]
  · rename_i hmin
    refine ⟨rfl, tracksFrame_refl _, ?_, fun hall => hall, fun _ => rfl⟩
    intro t ht c hc
    have hb := hm2 _ (mem_offsList ht hc)
    omega

/-- The drift-measurement fold only writes drift fields: skeletons and
frozen fields are intact. -/
theorem driftFold_spec (refBuf : List ℚ) (sr : ℕ) (thresh : ℚ) :
    ∀ (pairs : List (ℕ × ℕ)) (ts : List Track) (det : Bool)
      (r : List Track × Bool),
      driftFold refBuf sr thresh pairs ts det = some r →
      trackSkels r.1 = trackSkels ts ∧ TracksFrame ts r.1 := by
  intro pairs
  induction pairs with
  | nil =>
    intro ts det r h
    simp only [driftFold, Option.some.injEq] at h
    rw [← h]
    exact ⟨rfl, tracksFrame_refl ts⟩
  | cons tc rest ih =>
    intro ts det r h
    simp only [driftFold] at h
    split at h
    · split at h
      · exact absurd h (by simp)
      · split at h
        · have hr := ih _ _ _ h
          refine ⟨?_, ?_⟩
          · rw [hr.1]
            exact trackSkels_modifyClip ts tc _ (fun c => rfl)
          · refine tracksFrame_trans ?_ hr.2
            exact tracksFrame_modifyClip ts tc _ (fun c => rfl)
        · exact ih _ _ _ h
    · exact ih _ _ _ h

/-- Drift inheritance only writes drift fields: skeletons and frozen
fields are intact. -/
theorem inherit_spec (refIdx : ℕ) (ts : List Track) :
    trackSkels (inherit_drift_for_short_clips refIdx ts) = trackSkels ts ∧
    TracksFrame ts (inherit_drift_for_short_clips refIdx ts) := by
  unfold inherit_drift_for_short_clips
  refine @foldl_inv ℕ (List Track)
    (fun ts' => trackSkels ts' = trackSkels ts ∧ TracksFrame ts ts')
    _ (List.range ts.length) ts ⟨rfl, tracksFrame_refl ts⟩ ?_
  intro s a _ hs
  obtain ⟨h1, h2⟩ := hs
  dsimp only
  split
  · exact ⟨h1, h2⟩
  · split
    · exact ⟨h1, h2⟩
    · constructor
      · rw [trackSkels_setIdx _ s a ?_]
        · exact h1
        · dsimp only
          rw [List.map_map]
          apply List.map_congr_left
          intro c _
          dsimp only [Function.comp]
          split <;> rfl
      · refine tracksFrame_trans h2 (tracksFrame_setIdx s a _ ⟨rfl, rfl, rfl,
          List.Perm.of_eq ?_⟩)
        dsimp only
        rw [List.map_map]
        apply List.map_congr_left
        intro c _
        dsimp only [Function.comp]
        split <;> rfl

/-- Phase 8 on success: the reference track is rebuilt from metadata,
everything else keeps its skeleton; frozen fields are intact
everywhere. -/
theorem driftPhase_spec (sr refIdx : ℕ) (cfg : SyncConfig)
    (st : EngineState) (r : EngineState × Bool)
    (h : analyzeDriftPhase sr refIdx cfg st = some r) :
    ∃ pr : Track × List ℚ,
      build_reference_from_metadata (getTrackD st.tracks refIdx) sr = some pr ∧
      trackSkels r.1.tracks = trackSkels (setIdx st.tracks refIdx pr.1) ∧
      TracksFrame st.tracks r.1.tracks := by
  unfold analyzeDriftPhase at h
  cases hb : build_reference_from_metadata (getTrackD st.tracks refIdx) sr with
  | none => rw [hb] at h; exact absurd h (by simp)
  | some pr =>
    rw [hb] at h
    dsimp only at h
    cases hd : driftFold pr.2 sr cfg.drift_threshold_ppm
        (nonRefPairs (setIdx st.tracks refIdx pr.1) refIdx)
        (setIdx st.tracks refIdx pr.1) false with
    | none => rw [hd] at h; exact absurd h (by simp)
    | some r0 =>
      rw [hd] at h
      simp only [Option.some.injEq] at h
      subst h
      have hds := driftFold_spec pr.2 sr cfg.drift_threshold_ppm _ _ _ r0 hd
      have bs := build_spec (getTrackD st.tracks refIdx) sr pr.1 pr.2 hb
      refine ⟨pr, rfl, hds.1, ?_⟩
      exact tracksFrame_trans (tracksFrame_setIdx st.tracks refIdx pr.1
        ⟨bs.1, bs.2.2.1, bs.2.2.2.1, List.Perm.of_eq bs.2.2.2.2.1⟩) hds.2

/-- Sorting every track's clips by creation time is a frame no-op. -/
theorem tracksFrame_sortAll (ts : List Track) :
    TracksFrame ts (ts.map sort_clips_by_time) := by
  refine ⟨by simp, fun i hi => ?_⟩
  rw [getTrackD_map _ _ _ hi]
  exact ⟨rfl, rfl, rfl, (List.mergeSort_perm _ clipLe).map frozenClip⟩

/-- Marking the reference track is a frame no-op. -/
theorem tracksFrame_markRef (ts : List Track) (refIdx : ℕ) :
    TracksFrame ts
      (modifyIdx (fun t => { t with is_reference := true }) refIdx ts) := by
  refine ⟨length_modifyIdx _ refIdx ts, fun i hi => ?_⟩
  by_cases h : refIdx = i
  · subst h
    unfold getTrackD
    rw [getD_modifyIdx_self _ defaultTrack refIdx ts hi]
    exact ⟨rfl, rfl, rfl, List.Perm.refl _⟩
  · unfold getTrackD
    rw [getD_modifyIdx_ne _ defaultTrack refIdx i ts h]
    exact trackFrame_refl _

/-! ### Stage specifications of `analyze` -/

/-- Postconditions of the pipeline through phase 6.5: track count and
frozen fields preserved, reference index in range, every track pairwise
non-overlapping, and the reference track carrying the nonempty
nonnegative metadata layout. -/
theorem analyzeToFix_spec (tracks : List Track) (config : SyncConfig)
    (p : ℕ × EngineState) (h : analyzeToFix tracks config = some p) :
    p.2.tracks.length = tracks.length ∧
    p.1 < p.2.tracks.length ∧
    TracksFrame tracks p.2.tracks ∧
    (∀ t ∈ p.2.tracks, t.clips.Pairwise clipNonOverlap) ∧
    (getTrackD p.2.tracks p.1).clips ≠ [] ∧
    (∀ c ∈ (getTrackD p.2.tracks p.1).clips, 0 ≤ c.timeline_offset_samples) := by
  unfold analyzeToFix at h
  by_cases hemp : tracks.isEmpty
  · rw [if_pos hemp] at h
    exact absurd h (by simp)
  · rw [if_neg hemp] at h
    by_cases hsum : ((tracks.map (fun t => t.clips.length)).foldl (· + ·) 0) = 0
    · rw [if_pos hsum] at h
      exact absurd h (by simp)
    · rw [if_neg hsum] at h
      dsimp only at h
      set tracks1 := tracks.map sort_clips_by_time with htr1
      set refIdx := select_reference_index tracks1 with hri
      set tracks2 := modifyIdx (fun t => { t with is_reference := true })
        refIdx tracks1 with htr2
      cases hb : build_reference_from_metadata (getTrackD tracks2 refIdx)
          ANALYSIS_SR with
      | none =>
        rw [hb] at h
        exact absurd h (by simp)
      | some pr =>
        rw [hb] at h
        dsimp only at h
        simp only [Option.some.injEq] at h
        subst h
        dsimp only
        have hne : tracks ≠ [] := by
          intro hnil
          exact hemp (by rw [hnil]; rfl)
        have hlen1 : tracks1.length = tracks.length := by
          rw [htr1]
          simp
        have hne1 : tracks1 ≠ [] := by
          intro hnil
          rw [hnil] at hlen1
          exact hne (List.eq_nil_of_length_eq_zero hlen1.symm)
        have hrlt : refIdx < tracks1.length := by
          rw [hri]
          exact select_reference_index_lt tracks1 hne1
        have hlen2 : tracks2.length = tracks.length := by
          rw [htr2, length_modifyIdx]
          exact hlen1
        have bs := build_spec (getTrackD tracks2 refIdx) ANALYSIS_SR pr.1 pr.2 hb
        set tracks3 := setIdx tracks2 refIdx pr.1 with htr3
        have hlen3 : tracks3.length = tracks.length := by
          rw [htr3, length_setIdx]
          exact hlen2
        have href3 : getTrackD tracks3 refIdx = pr.1 := by
          rw [htr3]
          unfold getTrackD
          exact getD_setIdx_self tracks2 refIdx pr.1 defaultTrack (by omega)
        set st0 := initState tracks3 refIdx with hst0
        have hst0t : st0.tracks = tracks3 := rfl
        have hst0u : ∀ tc ∈ st0.unplaced, tc.1 ≠ refIdx := by
          intro tc htc
          exact absurd htc (List.not_mem_nil tc)
        have p1 := pass1_inv pr.2 ANALYSIS_SR config.max_offset_s refIdx st0 hst0u
        set st1 := pass1 pr.2 ANALYSIS_SR config.max_offset_s refIdx st0 with hst1
        have p2 := pass2_inv pr.2 ANALYSIS_SR config.max_offset_s refIdx st1
          p1.2.2.1
        set st2 := pass2 pr.2 ANALYSIS_SR config.max_offset_s st1 with hst2
        have hu2 : ∀ tc ∈ st2.unplaced, tc.1 ≠ refIdx := by
          intro tc htc
          rw [p2.2.2.1] at htc
          exact p1.2.2.1 tc htc
        have fb := fallback_inv ANALYSIS_SR
          (get_track_time_origin (getTrackD st2.tracks refIdx)) refIdx st2 hu2
        set st3 := st2.unplaced.foldl
          (fallbackStep ANALYSIS_SR
            (get_track_time_origin (getTrackD st2.tracks refIdx))) st2 with hst3
        have fx := fixPhase_inv ANALYSIS_SR refIdx st3
        have hrefchain : getTrackD st3.tracks refIdx = pr.1 := by
          rw [fb.2.1, p2.2.1, p1.2.1, hst0t]
          exact href3
        have hlen4 : (fixPhase ANALYSIS_SR refIdx st3).tracks.length
            = tracks.length := by
          rw [fx.1, fb.1, p2.1, p1.1, hst0t]
          exact hlen3
        have hrefp : getTrackD (fixPhase ANALYSIS_SR refIdx st3).tracks refIdx
            = pr.1 := by
          rw [fx.2.1]
          exact hrefchain
        refine ⟨hlen4, by omega, ?_, ?_, ?_, ?_⟩
        · refine tracksFrame_trans (tracksFrame_sortAll tracks) ?_
          rw [← htr1]
          refine tracksFrame_trans (tracksFrame_markRef tracks1 refIdx) ?_
          rw [← htr2]
          refine tracksFrame_trans (tracksFrame_setIdx tracks2 refIdx pr.1
            ⟨bs.1, bs.2.2.1, bs.2.2.2.1, List.Perm.of_eq bs.2.2.2.2.1⟩) ?_
          rw [← htr3, ← hst0t]
          exact tracksFrame_trans (tracksFrame_trans (tracksFrame_trans p1.2.2.2 p2.2.2.2) fb.2.2) fx.2.2
        · apply fixPhase_pairwise ANALYSIS_SR refIdx st3
          rw [hrefchain]
          exact bs.2.2.2.2.2.2.1
        · rw [hrefp]
          exact bs.2.2.2.2.2.1
        · rw [hrefp]
          exact bs.2.2.2.2.2.2.2

/-- `analyze` up to and including normalization: every stored offset is
nonnegative and the stored `max_end` matches the layout. -/
theorem analyzeToNorm_spec (tracks : List Track) (config : SyncConfig)
    (q : ℕ × EngineState × ℤ) (h : analyzeToNorm tracks config = some q) :
    q.2.1.tracks.length = tracks.length ∧
    q.1 < q.2.1.tracks.length ∧
    TracksFrame tracks q.2.1.tracks ∧
    (∀ t ∈ q.2.1.tracks, t.clips.Pairwise clipNonOverlap) ∧
    (∀ t ∈ q.2.1.tracks, ∀ c ∈ t.clips, 0 ≤ c.timeline_offset_samples) ∧
    q.2.2 = maxEndTracks q.2.1.tracks := by
  unfold analyzeToNorm at h
  cases hf : analyzeToFix tracks config with
  | none =>
    rw [hf] at h
    exact absurd h (by simp)
  | some p =>
    rw [hf] at h
    dsimp only at h
    simp only [Option.some.injEq] at h
    subst h
    dsimp only
    obtain ⟨hlen, hlt, hframe, hpair, hne, hnneg⟩ :=
      analyzeToFix_spec tracks config p hf
    have ns := normalizePhase_spec ANALYSIS_SR p.2
    have hwit : ∃ e ∈ endsList p.2.tracks, 0 ≤ e := by
      cases hcl : (getTrackD p.2.tracks p.1).clips with
      | nil => exact absurd hcl hne
      | cons c0 cl =>
        have htmem : getTrackD p.2.tracks p.1 ∈ p.2.tracks := by
          unfold getTrackD
          rw [List.getD_eq_getElem _ _ hlt]
          exact List.getElem_mem hlt
        have hcmem : c0 ∈ (getTrackD p.2.tracks p.1).clips := by
          rw [hcl]
          exact List.mem_cons_self c0 cl
        refine ⟨c0.end_samples, mem_endsList htmem hcmem, ?_⟩
        have h0 := hnneg c0 hcmem
        unfold Clip.end_samples
        have hl : (0 : ℤ) ≤ (c0.samples.length : ℤ) := by positivity
        omega
    refine ⟨?_, ?_, ?_, ?_, ?_, ?_⟩
    · rw [ns.1]
      exact hlen
    · rw [ns.1]
      omega
    · exact tracksFrame_trans hframe ns.2.1
    · exact ns.2.2.2.1 hpair
    · exact ns.2.2.1
    · exact ns.2.2.2.2 hwit

/-- C1: after the intra-track overlap repair (the spec's phase 8) and
through the end of `analyze`, every track's clips — stored in the
creation-time order established by the phase-1 sort — are pairwise
non-overlapping: `offset[i] + len[i] ≤ offset[j]` for `i < j`. -/
theorem C1_invariant (tracks : List Track) (config : SyncConfig) :
    (∀ p, analyzeToFix tracks config = some p →
      ∀ t ∈ p.2.tracks, t.clips.Pairwise clipNonOverlap) ∧
    (∀ out, analyze tracks config = some out →
      ∀ t ∈ out.1, t.clips.Pairwise clipNonOverlap) := by
  constructor
  · intro p hp
    exact (analyzeToFix_spec tracks config p hp).2.2.2.1
  · intro out hout
    unfold analyze at hout
    cases hq : analyzeToNorm tracks config with
    | none =>
      rw [hq] at hout
      exact absurd hout (by simp)
    | some q =>
      rw [hq] at hout
      dsimp only at hout
      cases hd : analyzeDriftPhase ANALYSIS_SR q.1 config q.2.1 with
      | none =>
        rw [hd] at hout
        exact absurd hout (by simp)
      | some r =>
        rw [hd] at hout
        simp only [Option.some.injEq] at hout
        subst hout
        dsimp only
        have ns := analyzeToNorm_spec tracks config q hq
        obtain ⟨pr, hbb, hskel, hframe⟩ :=
          driftPhase_spec ANALYSIS_SR q.1 config q.2.1 r hd
        have bs := build_spec _ ANALYSIS_SR pr.1 pr.2 hbb
        have hpair0 : ∀ t ∈ setIdx q.2.1.tracks q.1 pr.1,
            t.clips.Pairwise clipNonOverlap := by
          intro t ht
          rcases mem_setIdx _ _ ht with rfl | ht
          · exact bs.2.2.2.2.2.2.1
          · exact ns.2.2.2.1 t ht
        have hpair1 := pairwise_all_of_trackSkels_eq hskel hpair0
        by_cases hdet : r.2 = true
        · rw [if_pos hdet]
          exact pairwise_all_of_trackSkels_eq (inherit_spec q.1 r.1.tracks).1
            hpair1
        · rw [if_neg hdet]
          exact hpair1

theorem C1_invariant_witness :
    (analyzeToFix wTracks defaultSyncConfig = some wFix ∧
      ∀ t ∈ wFix.2.tracks, t.clips.Pairwise clipNonOverlap) ∧
    (analyze wTracks defaultSyncConfig = some wOut ∧
      ∀ t ∈ wOut.1, t.clips.Pairwise clipNonOverlap) :=
  ⟨⟨by with_unfolding_all rfl,
    (C1_invariant wTracks defaultSyncConfig).1 wFix
      (by with_unfolding_all rfl)⟩,
   ⟨by with_unfolding_all rfl,
    (C1_invariant wTracks defaultSyncConfig).2 wOut
      (by with_unfolding_all rfl)⟩⟩

/-- C2: after normalization (the spec's phase 9) and through the
successful return of `analyze`, every clip's `timeline_offset_samples`
is nonnegative. -/
theorem C2_nonneg (tracks : List Track) (config : SyncConfig) :
    (∀ q, analyzeToNorm tracks config = some q →
      ∀ t ∈ q.2.1.tracks, ∀ c ∈ t.clips, 0 ≤ c.timeline_offset_samples) ∧
    (∀ out, analyze tracks config = some out →
      ∀ t ∈ out.1, ∀ c ∈ t.clips, 0 ≤ c.timeline_offset_samples) := by
  constructor
  · intro q hq
    exact (analyzeToNorm_spec tracks config q hq).2.2.2.2.1
  · intro out hout
    unfold analyze at hout
    cases hq : analyzeToNorm tracks config with
    | none =>
      rw [hq] at hout
      exact absurd hout (by simp)
    | some q =>
      rw [hq] at hout
      dsimp only at hout
      cases hd : analyzeDriftPhase ANALYSIS_SR q.1 config q.2.1 with
      | none =>
        rw [hd] at hout
        exact absurd hout (by simp)
      | some r =>
        rw [hd] at hout
        simp only [Option.some.injEq] at hout
        subst hout
        dsimp only
        have ns := analyzeToNorm_spec tracks config q hq
        obtain ⟨pr, hbb, hskel, hframe⟩ :=
          driftPhase_spec ANALYSIS_SR q.1 config q.2.1 r hd
        have bs := build_spec _ ANALYSIS_SR pr.1 pr.2 hbb
        have hn0 : ∀ t ∈ setIdx q.2.1.tracks q.1 pr.1, ∀ c ∈ t.clips,
            0 ≤ c.timeline_offset_samples := by
          intro t ht
          rcases mem_setIdx _ _ ht with rfl | ht
          · exact bs.2.2.2.2.2.2.2
          · exact ns.2.2.2.2.1 t ht
        have hn1 := nonneg_all_of_trackSkels_eq hskel hn0
        by_cases hdet : r.2 = true
        · rw [if_pos hdet]
          exact nonneg_all_of_trackSkels_eq (inherit_spec q.1 r.1.tracks).1 hn1
        · rw [if_neg hdet]
          exact hn1

theorem C2_nonneg_witness :
    (analyzeToNorm wTracks defaultSyncConfig = some wNorm ∧
      ∀ t ∈ wNorm.2.1.tracks, ∀ c ∈ t.clips, 0 ≤ c.timeline_offset_samples) ∧
    (analyze wTracks defaultSyncConfig = some wOut ∧
      ∀ t ∈ wOut.1, ∀ c ∈ t.clips, 0 ≤ c.timeline_offset_samples) :=
  ⟨⟨by with_unfolding_all rfl,
    (C2_nonneg wTracks defaultSyncConfig).1 wNorm
      (by with_unfolding_all rfl)⟩,
   ⟨by with_unfolding_all rfl,
    (C2_nonneg wTracks defaultSyncConfig).2 wOut
      (by with_unfolding_all rfl)⟩⟩

/-- C3 (counterexample): on the two-track witness session `analyze`
succeeds but `total_timeline_samples` (6) differs from the maximal final
`offset + len` (4): the drift-phase reference rebuild of engine.rs line
246 resets the reference offsets after `max_end` was already stored. -/
theorem C3_counterexample :
    ∃ out, analyze wTracks defaultSyncConfig = some out ∧
      out.2.total_timeline_samples ≠ maxEndTracks out.1 := by
  refine ⟨wOut, by with_unfolding_all rfl, ?_⟩
  have h1 : wOut.2.total_timeline_samples = 6 := by with_unfolding_all rfl
  have h2 : maxEndTracks wOut.1 = 4 := by with_unfolding_all rfl
  rw [h1, h2]
  decide

/-- C3 (amended): `total_timeline_samples` equals the maximal
`offset + len` over all clips as they stood at the end of normalization
(the value can drift afterwards, when phase 10 rebuilds the reference
track's layout from metadata). -/
theorem C3_amended (tracks : List Track) (config : SyncConfig)
    (q : ℕ × EngineState × ℤ) (out : List Track × SyncResult)
    (hq : analyzeToNorm tracks config = some q)
    (hout : analyze tracks config = some out) :
    out.2.total_timeline_samples = maxEndTracks q.2.1.tracks := by
  unfold analyze at hout
  rw [hq] at hout
  dsimp only at hout
  cases hd : analyzeDriftPhase ANALYSIS_SR q.1 config q.2.1 with
  | none =>
    rw [hd] at hout
    exact absurd hout (by simp)
  | some r =>
    rw [hd] at hout
    simp only [Option.some.injEq] at hout
    subst hout
    dsimp only
    exact (analyzeToNorm_spec tracks config q hq).2.2.2.2.2

theorem C3_amended_witness :
    analyzeToNorm wTracks defaultSyncConfig = some wNorm ∧
    analyze wTracks defaultSyncConfig = some wOut ∧
    wOut.2.total_timeline_samples = maxEndTracks wNorm.2.1.tracks :=
  ⟨by with_unfolding_all rfl, by with_unfolding_all rfl,
    C3_amended wTracks defaultSyncConfig wNorm wOut
      (by with_unfolding_all rfl) (by with_unfolding_all rfl)⟩

/-- C10: `analyze` never adds or removes tracks or clips and never
writes any of `file_path`, `name`, `samples`, `sample_rate`,
`original_sr`, `original_channels`, `duration_s`, `is_video`,
`creation_time`, `drift_corrected`, `synced_audio`, `synced_channels`
or the track name: per track, the output clips are a permutation of the
input clips on all those frozen fields. -/
theorem C10_frame (tracks : List Track) (config : SyncConfig)
    (out : List Track × SyncResult) (h : analyze tracks config = some out) :
    TracksFrame tracks out.1 := by
  unfold analyze at h
  cases hq : analyzeToNorm tracks config with
  | none =>
    rw [hq] at h
    exact absurd h (by simp)
  | some q =>
    rw [hq] at h
    dsimp only at h
    cases hd : analyzeDriftPhase ANALYSIS_SR q.1 config q.2.1 with
    | none =>
      rw [hd] at h
      exact absurd h (by simp)
    | some r =>
      rw [hd] at h
      simp only [Option.some.injEq] at h
      subst h
      dsimp only
      have ns := analyzeToNorm_spec tracks config q hq
      obtain ⟨pr, hbb, hskel, hframe⟩ :=
        driftPhase_spec ANALYSIS_SR q.1 config q.2.1 r hd
      have base : TracksFrame tracks r.1.tracks := tracksFrame_trans ns.2.2.1 hframe
      by_cases hdet : r.2 = true
      · rw [if_pos hdet]
        exact tracksFrame_trans base (inherit_spec q.1 r.1.tracks).2
      · rw [if_neg hdet]
        exact base

theorem C10_frame_witness :
    analyze wTracks defaultSyncConfig = some wOut ∧ TracksFrame wTracks wOut.1 :=
  ⟨by with_unfolding_all rfl,
    C10_frame wTracks defaultSyncConfig wOut (by with_unfolding_all rfl)⟩

end AudioSync
